import Mathlib

/-!
K-d tree construction and pruned K-nearest-neighbour search (`knn.cpp`).

A shallow embedding of `buildKD`, `knnSearch` and the result assembly of `runMain`.

* `float` values are taken as elements of a linear ordered field `R` (exact arithmetic,
  no rounding, no NaN); `std::numeric_limits<float>::infinity()` is the top of `WithTop R`.
* `int` identifiers are `Int`, the recursion depth is a `Nat`, `K` is an `Int`.
* `Node<T>*` is the inductive type `Node T`, with `nullptr` as `Node.null`.
* The static `Node<T>::queryEmbedding` is passed explicitly.
* `std::priority_queue<pair<float,int>>` is a list of entries whose `top` is the greatest
  entry for `std::less<pair<float,int>>` and whose `pop` removes it.
* `heap.top()` on an empty queue is undefined behaviour: it is the fault `Fault.emptyTop`.
* `std::nth_element`, `std::sort` and `std::sqrt` are library code: they are parameters,
  constrained by their documented postconditions.
* Where exact arithmetic and `float` differ, single precision is modelled by `roundF32`
  and `sqrtF32` (IEEE 754 binary32, round to nearest, finite values).
-/

namespace KNN

/-! ## Embedding policies (`Embedding_T<T>`, `getCoordinate`) -/

/-- The trait `Embedding_T<T>` together with `getCoordinate<T>`: the dimension, the distance
and the coordinate access of an embedding type `T` with coordinates in `R`. -/
structure Embedding_T (R T : Type) where
  Dim : Nat
  distance : T → T → R
  getCoordinate : T → Nat → R

/-- The specialisation `Embedding_T<float>`: `Dim = 1`, `distance a b = std::abs(a - b)`,
and `getCoordinate` returns the scalar itself. -/
def scalarEmbedding (R : Type) [LinearOrderedField R] : Embedding_T R R where
  Dim := 1
  distance := fun a b => |a - b|
  getCoordinate := fun e _ => e

/-- The loop of `Embedding_T<std::array<float, N>>::distance`:
`s = 0; for i < N: d = a[i] - b[i]; s += d * d`. -/
def sumSquares {R : Type} [LinearOrderedField R] {N : Nat} (a b : Fin N → R) : R :=
  (List.finRange N).foldl (fun s i => s + (a i - b i) * (a i - b i)) 0

/-- The specialisation `Embedding_T<std::array<float, N>>`: `Dim = N`,
`distance a b = std::sqrt(s)` for the sum of squares `s`, `getCoordinate e axis = e[axis]`.
The library function `std::sqrt` is the parameter `sqrt`. The program only reads the axes
`depth % N`, which are below `N`; an index outside the array, which it never reads, gives 0
here. -/
def arrayEmbedding {R : Type} [LinearOrderedField R] (sqrt : R → R) (N : Nat) :
    Embedding_T R (Fin N → R) where
  Dim := N
  distance := fun a b => sqrt (sumSquares a b)
  getCoordinate := fun e axis => if h : axis < N then e ⟨axis, h⟩ else 0

/-! ## Tree nodes -/

/-- The struct `Node<T>`, behind a pointer: `null` is `nullptr`. -/
inductive Node (T : Type) where
  | null : Node T
  | node (embedding : T) (idx : Int) (left right : Node T) : Node T

namespace Node

variable {T : Type}

/-- The (embedding, identifier) pairs stored in a tree: left subtree, node, right subtree. -/
def items : Node T → List (T × Int)
  | null => []
  | node e i l r => items l ++ (e, i) :: items r

/-- Number of nodes of a tree. -/
def size : Node T → Nat
  | null => 0
  | node _ _ l r => size l + 1 + size r

/-- Number of nodes on the longest path from the root down to a leaf. -/
def height : Node T → Nat
  | null => 0
  | node _ _ l r => max (height l) (height r) + 1

end Node

/-! ## `buildKD` -/

section Build

variable {R T : Type} [LinearOrderedField R]

/-- The lambda `cmpAxis` of `buildKD`:
`getCoordinate(a.first, axis) < getCoordinate(b.first, axis)`. -/
def cmpAxis (E : Embedding_T R T) (axis : Nat) (a b : T × Int) : Bool :=
  decide (E.getCoordinate a.1 axis < E.getCoordinate b.1 axis)

/-- The body of `buildKD`, with the recursion bounded by `fuel`; `nth_element cmp mid items`
stands for `std::nth_element(items.begin(), items.begin() + mid, items.end(), cmp)` and
returns the rearranged vector. The branch `none` of `items[mid]?` is an access outside the
vector; it is not taken when `nth_element` keeps the size of the vector. -/
def buildKDFuel (E : Embedding_T R T)
    (nth_element : (T × Int → T × Int → Bool) → Nat → List (T × Int) → List (T × Int)) :
    Nat → List (T × Int) → Nat → Node T
  | 0, _, _ => Node.null
  | fuel + 1, items, depth =>
    match items with
    | [] => Node.null
    | first :: rest =>
      let axis := depth % E.Dim
      let mid := items.length / 2
      let items := nth_element (cmpAxis E axis) mid (first :: rest)
      match items[mid]? with
      | none => Node.null
      | some medianPair =>
        let left :=
          if 0 < mid then buildKDFuel E nth_element fuel (items.take mid) (depth + 1)
          else Node.null
        let right :=
          if mid + 1 < items.length then
            buildKDFuel E nth_element fuel (items.drop (mid + 1)) (depth + 1)
          else Node.null
        Node.node medianPair.1 medianPair.2 left right

/-- The function `buildKD(items, depth)`: every recursive call is on a strictly shorter
vector, so `items.size()` levels of recursion are enough (`buildKDFuel_stable`). -/
def buildKD (E : Embedding_T R T)
    (nth_element : (T × Int → T × Int → Bool) → Nat → List (T × Int) → List (T × Int))
    (items : List (T × Int)) (depth : Nat) : Node T :=
  buildKDFuel E nth_element items.length items depth

end Build

/-! ## The candidate heap (`MaxHeap<T>`) -/

section Heap

variable {R : Type} [LinearOrderedField R]

/-- The alias `PQItem<T> = std::pair<float, int>`: a distance and an identifier. -/
abbrev PQItem (R : Type) : Type := R × Int

/-- The comparison `std::less<std::pair<float, int>>`, that is `operator<` of `std::pair`:
`a.first < b.first || (!(b.first < a.first) && a.second < b.second)`. -/
def pairLess (a b : PQItem R) : Bool :=
  decide (a.1 < b.1 ∨ (¬ b.1 < a.1 ∧ a.2 < b.2))

/-- The alias `MaxHeap<T>`: a `std::priority_queue` of `PQItem`s ordered by `std::less`,
as the list of its entries. -/
abbrev MaxHeap (R : Type) : Type := List (PQItem R)

namespace MaxHeap

/-- The call `heap.top()`: the greatest entry for `pairLess`; `none` on an empty queue,
where the call is undefined. -/
def top : MaxHeap R → Option (PQItem R)
  | [] => none
  | x :: xs =>
    match top xs with
    | none => some x
    | some m => if pairLess m x then some x else some m

/-- The heap without one occurrence of the entry `m`. -/
def removeOne (heap : MaxHeap R) (m : PQItem R) : MaxHeap R :=
  @List.erase (PQItem R) instBEqOfDecidableEq heap m

/-- The call `heap.pop()`: removes the entry that `top` returns. -/
def pop (heap : MaxHeap R) : MaxHeap R :=
  match top heap with
  | none => heap
  | some m => heap.removeOne m

/-- The call `heap.push(x)`. -/
def push (heap : MaxHeap R) (x : PQItem R) : MaxHeap R := x :: heap

/-- The call `heap.size()`. -/
def size (heap : MaxHeap R) : Nat := heap.length

end MaxHeap

end Heap

/-! ## `knnSearch` -/

/-- What a search can run into: `heap.top()` evaluated on an empty queue. -/
inductive Fault where
  | emptyTop : Fault
  deriving DecidableEq, Repr

section Search

variable {R T : Type} [LinearOrderedField R]

/-- The block "consider this node" of `knnSearch`: push while the heap has fewer than `K`
entries, otherwise replace the top when `dist` is strictly smaller than its distance. -/
def consider (K : Int) (heap : MaxHeap R) (dist : R) (idx : Int) :
    Except Fault (MaxHeap R) :=
  if (heap.size : Int) < K then
    Except.ok (heap.push (dist, idx))
  else
    match heap.top with
    | none => Except.error Fault.emptyTop
    | some t =>
      if dist < t.1 then Except.ok (heap.pop.push (dist, idx))
      else Except.ok heap

/-- The value `worstDist` of `knnSearch`:
`heap.empty() ? infinity : heap.top().first`. -/
def worstDist (heap : MaxHeap R) : WithTop R :=
  match heap.top with
  | none => ⊤
  | some t => (t.1 : WithTop R)

/-- The function `knnSearch(node, depth, K, heap)`, with the query embedding
`Node<T>::queryEmbedding` as the argument `queryEmbedding`; the heap is returned. -/
def knnSearch (E : Embedding_T R T) (queryEmbedding : T) :
    Node T → Nat → Int → MaxHeap R → Except Fault (MaxHeap R)
  | Node.null, _, _, heap => Except.ok heap
  | Node.node embedding idx left right, depth, K, heap =>
    let dist := E.distance embedding queryEmbedding
    match consider K heap dist idx with
    | Except.error f => Except.error f
    | Except.ok heap =>
      let axis := depth % E.Dim
      let goLeft : Bool :=
        decide (E.getCoordinate queryEmbedding axis < E.getCoordinate embedding axis)
      let near := if goLeft then knnSearch E queryEmbedding left
        else knnSearch E queryEmbedding right
      let far := if goLeft then knnSearch E queryEmbedding right
        else knnSearch E queryEmbedding left
      match near (depth + 1) K heap with
      | Except.error f => Except.error f
      | Except.ok heap =>
        let delta := |E.getCoordinate queryEmbedding axis - E.getCoordinate embedding axis|
        if (heap.size : Int) < K ∨ (delta : WithTop R) < worstDist heap then
          far (depth + 1) K heap
        else Except.ok heap

end Search

/-! ## Result assembly of `runMain` -/

section Main

variable {R T : Type} [LinearOrderedField R]

/-- The loop `while (!heap.empty()) { out.push_back(heap.top()); heap.pop(); }`, bounded
by `fuel`. -/
def drainFuel : Nat → MaxHeap R → List (PQItem R)
  | 0, _ => []
  | fuel + 1, heap =>
    match heap.top with
    | none => []
    | some t => t :: drainFuel fuel heap.pop

/-- The drain loop of `runMain`: each round removes one entry, so `heap.size()` rounds
empty the heap. -/
def drain (heap : MaxHeap R) : List (PQItem R) := drainFuel heap.length heap

/-- The comparator of the final `std::sort`: `a.first < b.first`. -/
def cmpDist (a b : PQItem R) : Bool := decide (a.1 < b.1)

/-- The search part of `runMain` on the tree `root`: `knnSearch` from depth 0 with an empty
heap, then the heap drained into `out` and `out` sorted by `cmpDist`; `sort cmp out` stands
for `std::sort(out.begin(), out.end(), cmp)` and returns the rearranged vector. -/
def searchSorted (E : Embedding_T R T)
    (sort : (PQItem R → PQItem R → Bool) → List (PQItem R) → List (PQItem R))
    (queryEmbedding : T) (K : Int) (root : Node T) : Except Fault (List (PQItem R)) :=
  match knnSearch E queryEmbedding root 0 K [] with
  | Except.error f => Except.error f
  | Except.ok heap => Except.ok (sort cmpDist (drain heap))

/-- The core of `runMain` for the points `allPoints` and the query `queryEmbedding`: build
the tree with `buildKD(allPoints, 0)`, then search, drain and sort. -/
def runMain (E : Embedding_T R T)
    (nth_element : (T × Int → T × Int → Bool) → Nat → List (T × Int) → List (T × Int))
    (sort : (PQItem R → PQItem R → Bool) → List (PQItem R) → List (PQItem R))
    (queryEmbedding : T) (K : Int) (allPoints : List (T × Int)) :
    Except Fault (List (PQItem R)) :=
  searchSorted E sort queryEmbedding K (buildKD E nth_element allPoints 0)

end Main

/-! ## Library contracts and executable instances -/

section Library

variable {R T : Type} [LinearOrderedField R]

/-- The postcondition of `std::nth_element` for the comparators `cmpAxis E axis`: the
result is a rearrangement of the input, and no element at or after position `mid` compares
less than an element at or before it. -/
def NthElementPost (E : Embedding_T R T)
    (nth_element : (T × Int → T × Int → Bool) → Nat → List (T × Int) → List (T × Int)) :
    Prop :=
  ∀ (axis mid : Nat) (items : List (T × Int)), mid < items.length →
    (nth_element (cmpAxis E axis) mid items).Perm items ∧
    ∀ (i j : Nat) (a b : T × Int), i ≤ mid → mid ≤ j →
      (nth_element (cmpAxis E axis) mid items)[i]? = some a →
      (nth_element (cmpAxis E axis) mid items)[j]? = some b →
      cmpAxis E axis b a = false

/-- The postcondition of `std::sort` for the comparator `cmpDist`: the result is a
rearrangement of the input in which no later element compares less than an earlier one. -/
def SortPost (sort : (PQItem R → PQItem R → Bool) → List (PQItem R) → List (PQItem R)) :
    Prop :=
  ∀ out : List (PQItem R),
    (sort cmpDist out).Perm out ∧
    (sort cmpDist out).Pairwise (fun a b => cmpDist b a = false)

/-- An executable sort by a comparator `cmp`, by insertion: it keeps equivalent elements in
their input order. Used as an instance of `std::sort` and, sorting the whole vector, of
`std::nth_element`. -/
def insertionSortBy {α : Type} (cmp : α → α → Bool) (xs : List α) : List α :=
  xs.insertionSort (fun a b => cmp b a = false)

/-- An executable `std::nth_element`: sort the whole vector. -/
def nthBySort {α : Type} (cmp : α → α → Bool) (_mid : Nat) (xs : List α) : List α :=
  insertionSortBy cmp xs

end Library

/-! ## Tree invariants -/

section Invariants

variable {R T : Type} [LinearOrderedField R]

/-- The k-d ordering of a tree whose root is at depth `depth`: at every node, on the axis
`depth % Dim` of that node, the points of the left subtree have a coordinate at most the
node's and the points of the right subtree a coordinate at least the node's. -/
def KdOrdered (E : Embedding_T R T) : Nat → Node T → Prop
  | _, Node.null => True
  | depth, Node.node e _ l r =>
    (∀ p ∈ l.items, E.getCoordinate p.1 (depth % E.Dim) ≤ E.getCoordinate e (depth % E.Dim)) ∧
    (∀ p ∈ r.items, E.getCoordinate e (depth % E.Dim) ≤ E.getCoordinate p.1 (depth % E.Dim)) ∧
    KdOrdered E (depth + 1) l ∧ KdOrdered E (depth + 1) r

/-- The ordering with a strict left side: at every node the points of the left subtree have
a coordinate strictly smaller than the node's on the node's axis, those of the right subtree
a coordinate at least the node's. -/
def StrictLeftOrdered (E : Embedding_T R T) : Nat → Node T → Prop
  | _, Node.null => True
  | depth, Node.node e _ l r =>
    (∀ p ∈ l.items, E.getCoordinate p.1 (depth % E.Dim) < E.getCoordinate e (depth % E.Dim)) ∧
    (∀ p ∈ r.items, E.getCoordinate e (depth % E.Dim) ≤ E.getCoordinate p.1 (depth % E.Dim)) ∧
    StrictLeftOrdered E (depth + 1) l ∧ StrictLeftOrdered E (depth + 1) r

instance KdOrdered.decidable (E : Embedding_T R T) :
    ∀ (depth : Nat) (t : Node T), Decidable (KdOrdered E depth t)
  | _, Node.null => isTrue trivial
  | depth, Node.node _ _ l r =>
    have := KdOrdered.decidable E (depth + 1) l
    have := KdOrdered.decidable E (depth + 1) r
    show Decidable (_ ∧ _ ∧ _ ∧ _) from inferInstance

instance StrictLeftOrdered.decidable (E : Embedding_T R T) :
    ∀ (depth : Nat) (t : Node T), Decidable (StrictLeftOrdered E depth t)
  | _, Node.null => isTrue trivial
  | depth, Node.node _ _ l r =>
    have := StrictLeftOrdered.decidable E (depth + 1) l
    have := StrictLeftOrdered.decidable E (depth + 1) r
    show Decidable (_ ∧ _ ∧ _ ∧ _) from inferInstance

end Invariants

/-! ## Specification of the search result -/

section SearchSpec

variable {R T : Type} [LinearOrderedField R]

/-- The (distance, identifier) entry that `knnSearch` computes for a stored pair. -/
def entry (E : Embedding_T R T) (queryEmbedding : T) (p : T × Int) : PQItem R :=
  (E.distance p.1 queryEmbedding, p.2)

/-- The entries of a list of stored pairs. -/
def entries (E : Embedding_T R T) (queryEmbedding : T) (ps : List (T × Int)) :
    List (PQItem R) :=
  ps.map (entry E queryEmbedding)

/-- The brute-force scan of the specification: the distances of all points to the query,
in ascending order, cut after the first `K`. -/
def bruteForce (E : Embedding_T R T) (queryEmbedding : T) (K : Nat)
    (points : List (T × Int)) : List R :=
  ((points.map fun p => E.distance p.1 queryEmbedding).insertionSort (· ≤ ·)).take K

/-- The heap `heap` holds best entries of the entries `seen`: the entries of `seen` split
into the heap and a remainder none of which is closer than a heap entry, the heap has at
most `K` entries, and it has exactly `K` unless the remainder is empty. -/
def Optimal (K : Int) (seen heap : List (PQItem R)) : Prop :=
  ∃ rest : List (PQItem R), seen.Perm (heap ++ rest) ∧
    (∀ y ∈ heap, ∀ x ∈ rest, y.1 ≤ x.1) ∧
    (heap.length : Int) ≤ K ∧ (rest ≠ [] → (heap.length : Int) = K)

/-- The pruning bound of an embedding policy: the difference of two embeddings on any one
axis is at most their distance. -/
def AxisBound (E : Embedding_T R T) : Prop :=
  ∀ (p q : T) (axis : Nat), |E.getCoordinate q axis - E.getCoordinate p axis| ≤ E.distance p q

end SearchSpec

/-! ## The sequence of node visits -/

section Visits

variable {R T : Type} [LinearOrderedField R]

/-- The step `consider` applied to a sequence of entries, one after the other. -/
def considerAll (K : Int) : MaxHeap R → List (PQItem R) → Except Fault (MaxHeap R)
  | heap, [] => Except.ok heap
  | heap, x :: xs =>
    match consider K heap x.1 x.2 with
    | Except.error f => Except.error f
    | Except.ok heap => considerAll K heap xs

/-- The function `knnSearch` instrumented with a log: it returns, next to the heap, the
entries of the nodes it visited (those whose distance it computed and offered to the heap),
in the order of the visits. -/
def knnSearchLog (E : Embedding_T R T) (queryEmbedding : T) :
    Node T → Nat → Int → MaxHeap R → Except Fault (MaxHeap R × List (PQItem R))
  | Node.null, _, _, heap => Except.ok (heap, [])
  | Node.node embedding idx left right, depth, K, heap =>
    let dist := E.distance embedding queryEmbedding
    match consider K heap dist idx with
    | Except.error f => Except.error f
    | Except.ok heap =>
      let axis := depth % E.Dim
      let goLeft : Bool :=
        decide (E.getCoordinate queryEmbedding axis < E.getCoordinate embedding axis)
      let near := if goLeft then knnSearchLog E queryEmbedding left
        else knnSearchLog E queryEmbedding right
      let far := if goLeft then knnSearchLog E queryEmbedding right
        else knnSearchLog E queryEmbedding left
      match near (depth + 1) K heap with
      | Except.error f => Except.error f
      | Except.ok (heap, nearLog) =>
        let delta := |E.getCoordinate queryEmbedding axis - E.getCoordinate embedding axis|
        if (heap.size : Int) < K ∨ (delta : WithTop R) < worstDist heap then
          match far (depth + 1) K heap with
          | Except.error f => Except.error f
          | Except.ok (heap, farLog) => Except.ok (heap, (dist, idx) :: nearLog ++ farLog)
        else Except.ok (heap, (dist, idx) :: nearLog)

end Visits

/-! ## Statements about whole searches -/

section Statements

variable {R T : Type} [LinearOrderedField R]

/-- Completeness of a search on the tree built from `points`: `knnSearch` from an empty
heap returns a heap; the entries of all points split into the heap and a remainder in which
no entry is closer than a heap entry; and the distances in the heap are, as a multiset,
those of the brute-force scan cut after `K`. -/
def SearchComplete (E : Embedding_T R T)
    (nth_element : (T × Int → T × Int → Bool) → Nat → List (T × Int) → List (T × Int))
    (queryEmbedding : T) (K : Int) (points : List (T × Int)) : Prop :=
  ∃ heap : MaxHeap R,
    knnSearch E queryEmbedding (buildKD E nth_element points 0) 0 K [] = Except.ok heap ∧
    (∃ rest : List (PQItem R), (entries E queryEmbedding points).Perm (heap ++ rest) ∧
      ∀ y ∈ heap, ∀ x ∈ rest, y.1 ≤ x.1) ∧
    (heap.map Prod.fst).Perm (bruteForce E queryEmbedding K.toNat points)

end Statements

/-! ## Concrete inputs and subtrees by depth -/

deriving instance DecidableEq for Except

deriving instance DecidableEq for Node

/-- The subtrees of a tree whose root lies `d` levels below the root of the tree. -/
def Node.subtreesAt {T : Type} : Node T → Nat → List (Node T)
  | t, 0 => [t]
  | Node.null, _ + 1 => []
  | Node.node _ _ l r, d + 1 => Node.subtreesAt l d ++ Node.subtreesAt r d

/-- The points of the one-dimensional example scenario:
`[(0.0, id=1), (5.0, id=2), (2.0, id=3), (9.0, id=4)]`. -/
def examplePoints : List (ℚ × Int) := [(0, 1), (5, 2), (2, 3), (9, 4)]
/-! ## Single-precision arithmetic -/

section Float32

end Float32

/-! ## Visit order and explicit program state -/

section VisitOrder

variable {R T : Type} [LinearOrderedField R]

/-- The order in which `knnSearch` reaches the nodes of a tree when nothing is pruned: the
node itself, then the near child's subtree, then the far child's subtree, where the near
child is the left one when the query coordinate on the node's axis is smaller than the
node's. Every node of the tree occurs once. -/
def Node.searchOrder (E : Embedding_T R T) (queryEmbedding : T) : Node T → Nat → List (T × Int)
  | Node.null, _ => []
  | Node.node embedding idx left right, depth =>
    let axis := depth % E.Dim
    if E.getCoordinate queryEmbedding axis < E.getCoordinate embedding axis then
      (embedding, idx) :: (Node.searchOrder E queryEmbedding left (depth + 1) ++
        Node.searchOrder E queryEmbedding right (depth + 1))
    else
      (embedding, idx) :: (Node.searchOrder E queryEmbedding right (depth + 1) ++
        Node.searchOrder E queryEmbedding left (depth + 1))

/-- The far child of a node for a query: the right child when the query coordinate on the
node's axis is smaller than the node's, the left child otherwise (`far` in `knnSearch`). -/
def farChild (E : Embedding_T R T) (queryEmbedding : T) (depth : Nat) (embedding : T)
    (left right : Node T) : Node T :=
  if E.getCoordinate queryEmbedding (depth % E.Dim) < E.getCoordinate embedding (depth % E.Dim)
  then right else left

/-- The near child of a node for a query (`near` in `knnSearch`). -/
def nearChild (E : Embedding_T R T) (queryEmbedding : T) (depth : Nat) (embedding : T)
    (left right : Node T) : Node T :=
  if E.getCoordinate queryEmbedding (depth % E.Dim) < E.getCoordinate embedding (depth % E.Dim)
  then left else right

/-- The test of `knnSearch` that lets it enter the far child:
`(int)heap.size() < K || delta < worstDist`. -/
def exploresFar (E : Embedding_T R T) (queryEmbedding : T) (depth : Nat) (K : Int)
    (embedding : T) (heap : MaxHeap R) : Prop :=
  (heap.size : Int) < K ∨
    ((|E.getCoordinate queryEmbedding (depth % E.Dim) -
        E.getCoordinate embedding (depth % E.Dim)| : R) : WithTop R) < worstDist heap

instance exploresFar.decidable (E : Embedding_T R T) (queryEmbedding : T) (depth : Nat)
    (K : Int) (embedding : T) (heap : MaxHeap R) :
    Decidable (exploresFar E queryEmbedding depth K embedding heap) :=
  show Decidable (_ ∨ _) from inferInstance

/-- The halving shape of a tree: at every node the left subtree holds half (rounded down)
of the points of the node's subtree. -/
def Halved : Node T → Prop
  | Node.null => True
  | Node.node _ _ l r => l.size = (l.size + 1 + r.size) / 2 ∧ Halved l ∧ Halved r

/-- The memory a search works on: the tree behind `root`, the static
`Node<T>::queryEmbedding`, and the heap passed by reference. -/
structure Memory (R T : Type) where
  root : Node T
  queryEmbedding : T
  heap : MaxHeap R

/-- The function `knnSearch` as a transformer of the memory: `node` is the pointer argument
(a subtree of the tree in memory), the query is read from the memory, and the only writes
are the `push` and `pop` on the heap. -/
def knnSearchMem (E : Embedding_T R T) :
    Node T → Nat → Int → Memory R T → Except Fault (Memory R T)
  | Node.null, _, _, mem => Except.ok mem
  | Node.node embedding idx left right, depth, K, mem =>
    let dist := E.distance embedding mem.queryEmbedding
    match consider K mem.heap dist idx with
    | Except.error f => Except.error f
    | Except.ok heap =>
      let mem : Memory R T := ⟨mem.root, mem.queryEmbedding, heap⟩
      let axis := depth % E.Dim
      let goLeft : Bool :=
        decide (E.getCoordinate mem.queryEmbedding axis < E.getCoordinate embedding axis)
      let near := if goLeft then knnSearchMem E left else knnSearchMem E right
      let far := if goLeft then knnSearchMem E right else knnSearchMem E left
      match near (depth + 1) K mem with
      | Except.error f => Except.error f
      | Except.ok mem =>
        let delta :=
          |E.getCoordinate mem.queryEmbedding axis - E.getCoordinate embedding axis|
        if (mem.heap.size : Int) < K ∨ (delta : WithTop R) < worstDist mem.heap then
          far (depth + 1) K mem
        else Except.ok mem

/-- One search call of `runMain` on the memory: a fresh empty heap, `knnSearch` from the
root at depth 0, then the heap drained and sorted. It returns the memory after the call and
the result sequence. -/
def searchCall (E : Embedding_T R T)
    (sort : (PQItem R → PQItem R → Bool) → List (PQItem R) → List (PQItem R))
    (K : Int) (mem : Memory R T) : Except Fault (Memory R T × List (PQItem R)) :=
  match knnSearchMem E mem.root 0 K ⟨mem.root, mem.queryEmbedding, []⟩ with
  | Except.error f => Except.error f
  | Except.ok mem2 =>
    Except.ok (⟨mem2.root, mem2.queryEmbedding, []⟩, sort cmpDist (drain mem2.heap))

end VisitOrder

end KNN

namespace KNN

section BuildTheory

variable {R T : Type} [LinearOrderedField R]
variable {E : Embedding_T R T}
variable {nth : (T × Int → T × Int → Bool) → Nat → List (T × Int) → List (T × Int)}

theorem buildKDFuel_nil (fuel depth : Nat) :
    buildKDFuel E nth fuel [] depth = Node.null := by
  cases fuel <;> rfl

theorem buildKD_nil (depth : Nat) : buildKD E nth [] depth = Node.null := rfl

/-- Under the `std::nth_element` postcondition the fuel of `buildKDFuel` never runs out:
any two amounts of at least `items.length` give the same tree. -/
theorem buildKDFuel_stable (hsel : NthElementPost E nth) :
    ∀ (fuel fuel2 : Nat) (items : List (T × Int)) (depth : Nat),
      items.length ≤ fuel → items.length ≤ fuel2 →
      buildKDFuel E nth fuel items depth = buildKDFuel E nth fuel2 items depth := by
  intro fuel
  induction fuel with
  | zero =>
    intro fuel2 items depth h1 _
    have : items = [] := List.length_eq_zero.mp (Nat.le_zero.mp h1)
    subst this
    rw [buildKDFuel_nil, buildKDFuel_nil]
  | succ fuel ih =>
    intro fuel2 items depth h1 h2
    cases items with
    | nil => rw [buildKDFuel_nil, buildKDFuel_nil]
    | cons first rest =>
      cases fuel2 with
      | zero => simp at h2
      | succ fuel2 =>
        have hmid : (first :: rest).length / 2 < (first :: rest).length :=
          Nat.div_lt_self (by simp) (by decide)
        have hperm := (hsel (depth % E.Dim) _ (first :: rest) hmid).1
        have hlen := hperm.length_eq
        simp only [buildKDFuel]
        have hl : ∀ f, (first :: rest).length ≤ f + 1 →
            ((nth (cmpAxis E (depth % E.Dim)) ((first :: rest).length / 2)
              (first :: rest)).take ((first :: rest).length / 2)).length ≤ f := by
          intro f hf
          rw [List.length_take]
          omega
        have hr : ∀ f, (first :: rest).length ≤ f + 1 →
            ((nth (cmpAxis E (depth % E.Dim)) ((first :: rest).length / 2)
              (first :: rest)).drop ((first :: rest).length / 2 + 1)).length ≤ f := by
          intro f hf
          rw [List.length_drop]
          omega
        rw [ih fuel2 _ (depth + 1) (hl fuel h1) (hl fuel2 h2),
          ih fuel2 _ (depth + 1) (hr fuel h1) (hr fuel2 h2)]

/-- One level of `buildKD` on a non-empty vector: the node holds the element that
`std::nth_element` leaves at the middle index, its children are built from the elements
before and after it. -/
theorem buildKD_cons (hsel : NthElementPost E nth) (items : List (T × Int)) (depth : Nat)
    (hne : items ≠ []) :
    ∃ m : T × Int,
      (nth (cmpAxis E (depth % E.Dim)) (items.length / 2) items)[items.length / 2]? = some m ∧
      buildKD E nth items depth =
        Node.node m.1 m.2
          (buildKD E nth
            ((nth (cmpAxis E (depth % E.Dim)) (items.length / 2) items).take
              (items.length / 2)) (depth + 1))
          (buildKD E nth
            ((nth (cmpAxis E (depth % E.Dim)) (items.length / 2) items).drop
              (items.length / 2 + 1)) (depth + 1)) := by
  cases items with
  | nil => exact absurd rfl hne
  | cons first rest =>
    have hmid : (first :: rest).length / 2 < (first :: rest).length :=
      Nat.div_lt_self (by simp) (by decide)
    have hperm := (hsel (depth % E.Dim) _ (first :: rest) hmid).1
    have hlen := hperm.length_eq
    have hget : ((first :: rest).length / 2) <
        (nth (cmpAxis E (depth % E.Dim)) ((first :: rest).length / 2)
          (first :: rest)).length := by omega
    refine ⟨_, List.getElem?_eq_getElem hget, ?_⟩
    have hc : (first :: rest).length = rest.length + 1 := rfl
    show buildKDFuel E nth (rest.length + 1) (first :: rest) depth = _
    simp only [buildKDFuel]
    rw [List.getElem?_eq_getElem hget]
    simp only [buildKD]
    congr 1
    · by_cases h0 : 0 < (first :: rest).length / 2
      · rw [if_pos h0]
        apply buildKDFuel_stable hsel
        · rw [List.length_take]; omega
        · exact le_refl _
      · rw [if_neg h0]
        have : (first :: rest).length / 2 = 0 := by omega
        rw [this, List.take_zero, buildKDFuel_nil]
    · by_cases h1 : (first :: rest).length / 2 + 1 <
          (nth (cmpAxis E (depth % E.Dim)) ((first :: rest).length / 2)
            (first :: rest)).length
      · rw [if_pos h1]
        apply buildKDFuel_stable hsel
        · rw [List.length_drop]; omega
        · exact le_refl _
      · rw [if_neg h1]
        rw [List.drop_eq_nil_of_le (by omega), buildKDFuel_nil]

end BuildTheory

end KNN

namespace KNN

section BuildTheory2

variable {R T : Type} [LinearOrderedField R]
variable {E : Embedding_T R T}
variable {nth : (T × Int → T × Int → Bool) → Nat → List (T × Int) → List (T × Int)}

/-- Induction along the recursion of `buildKD`. -/
theorem buildKD_induct (hsel : NthElementPost E nth)
    (P : List (T × Int) → Nat → Node T → Prop)
    (hnil : ∀ depth, P [] depth Node.null)
    (hnode : ∀ (items out : List (T × Int)) (depth : Nat) (m : T × Int), items ≠ [] →
      out = nth (cmpAxis E (depth % E.Dim)) (items.length / 2) items →
      out[items.length / 2]? = some m →
      P (out.take (items.length / 2)) (depth + 1)
        (buildKD E nth (out.take (items.length / 2)) (depth + 1)) →
      P (out.drop (items.length / 2 + 1)) (depth + 1)
        (buildKD E nth (out.drop (items.length / 2 + 1)) (depth + 1)) →
      P items depth (Node.node m.1 m.2
        (buildKD E nth (out.take (items.length / 2)) (depth + 1))
        (buildKD E nth (out.drop (items.length / 2 + 1)) (depth + 1)))) :
    ∀ (items : List (T × Int)) (depth : Nat), P items depth (buildKD E nth items depth) := by
  intro items
  generalize hn : items.length = n
  induction n using Nat.strong_induction_on generalizing items with
  | _ n ih =>
    intro depth
    subst hn
    by_cases hne : items = []
    · subst hne
      exact hnil depth
    · obtain ⟨m, hm, hb⟩ := buildKD_cons hsel items depth hne
      rw [hb]
      have hpos : 0 < items.length := List.length_pos.mpr hne
      have hmid : items.length / 2 < items.length := Nat.div_lt_self hpos (by decide)
      have hlen := (hsel (depth % E.Dim) _ items hmid).1.length_eq
      refine hnode items _ depth m hne rfl hm ?_ ?_
      · exact ih _ (by rw [List.length_take]; omega) _ rfl (depth + 1)
      · exact ih _ (by rw [List.length_drop]; omega) _ rfl (depth + 1)

theorem split_at_mid {α : Type} (out : List α) (mid : Nat) (m : α) (h : out[mid]? = some m) :
    out = out.take mid ++ m :: out.drop (mid + 1) := by
  obtain ⟨hlt, hget⟩ := List.getElem?_eq_some.mp h
  rw [← hget, ← List.drop_eq_getElem_cons hlt, List.take_append_drop]

/-- The tree stores a rearrangement of the input pairs. -/
theorem buildKD_items_perm (hsel : NthElementPost E nth) (items : List (T × Int))
    (depth : Nat) : (buildKD E nth items depth).items.Perm items := by
  refine buildKD_induct hsel (fun items _ t => t.items.Perm items) ?_ ?_ items depth
  · intro _; exact List.Perm.refl _
  · intro items out depth m hne hout hm hl hr
    have hpos : 0 < items.length := List.length_pos.mpr hne
    have hmid : items.length / 2 < items.length := Nat.div_lt_self hpos (by decide)
    have hperm := (hsel (depth % E.Dim) _ items hmid).1
    rw [← hout] at hperm
    show (_ ++ (m.1, m.2) :: _).Perm items
    refine List.Perm.trans ?_ hperm
    conv_rhs => rw [split_at_mid out _ m hm]
    exact List.Perm.append hl (List.Perm.cons _ hr)

theorem Node.size_eq_length_items {T : Type} (t : Node T) : t.size = t.items.length := by
  induction t with
  | null => rfl
  | node e i l r ihl ihr => simp [Node.size, Node.items, ihl, ihr]; omega

theorem buildKD_size (hsel : NthElementPost E nth) (items : List (T × Int)) (depth : Nat) :
    (buildKD E nth items depth).size = items.length := by
  rw [Node.size_eq_length_items, (buildKD_items_perm hsel items depth).length_eq]

/-- The height of the built tree is at most `⌈log₂ (N + 1)⌉`. -/
theorem buildKD_height_le_clog (hsel : NthElementPost E nth) (items : List (T × Int))
    (depth : Nat) :
    (buildKD E nth items depth).height ≤ Nat.clog 2 (items.length + 1) := by
  refine buildKD_induct hsel (fun items _ t => t.height ≤ Nat.clog 2 (items.length + 1))
    ?_ ?_ items depth
  · intro _; simp [Node.height]
  · intro items out depth m hne hout hm hl hr
    have hpos : 0 < items.length := List.length_pos.mpr hne
    have hmid : items.length / 2 < items.length := Nat.div_lt_self hpos (by decide)
    have hlen := (hsel (depth % E.Dim) _ items hmid).1.length_eq
    rw [← hout] at hlen
    show max _ _ + 1 ≤ _
    rw [Nat.clog_of_two_le (by decide) (by omega)]
    have e : (items.length + 1 + 2 - 1) / 2 = items.length / 2 + 1 := by omega
    rw [e]
    apply Nat.succ_le_succ
    apply max_le
    · refine le_trans hl (Nat.clog_mono_right 2 ?_)
      rw [List.length_take]; omega
    · refine le_trans hr (Nat.clog_mono_right 2 ?_)
      rw [List.length_drop]; omega

/-- The tree built by `buildKD` is k-d ordered. -/
theorem buildKD_kdOrdered (hsel : NthElementPost E nth) (items : List (T × Int))
    (depth : Nat) : KdOrdered E depth (buildKD E nth items depth) := by
  refine buildKD_induct hsel (fun _ depth t => KdOrdered E depth t) ?_ ?_ items depth
  · intro _; exact trivial
  · intro items out depth m hne hout hm hl hr
    have hpos : 0 < items.length := List.length_pos.mpr hne
    have hmid : items.length / 2 < items.length := Nat.div_lt_self hpos (by decide)
    have hpost := (hsel (depth % E.Dim) _ items hmid).2
    rw [← hout] at hpost
    refine ⟨?_, ?_, hl, hr⟩
    · intro p hp
      have hp2 := (buildKD_items_perm hsel _ _).mem_iff.mp hp
      obtain ⟨i, hi, hpi⟩ := List.mem_take_iff_getElem.mp hp2
      have hi2 : i < items.length / 2 ∧ i < out.length := by
        simpa [Nat.lt_min] using hi
      have h := hpost i (items.length / 2) p m (by omega) (le_refl _)
        (by rw [List.getElem?_eq_getElem hi2.2, hpi]) hm
      simpa [cmpAxis] using h
    · intro p hp
      have hp2 := (buildKD_items_perm hsel _ _).mem_iff.mp hp
      obtain ⟨j, hj⟩ := List.mem_iff_getElem?.mp hp2
      rw [List.getElem?_drop] at hj
      have h := hpost (items.length / 2) (items.length / 2 + 1 + j) m p (le_refl _)
        (by omega) hm hj
      simpa [cmpAxis] using h

end BuildTheory2

end KNN

namespace KNN

section HeapTheory

variable {R : Type} [LinearOrderedField R]

theorem MaxHeap.top_eq_none_iff (heap : MaxHeap R) : heap.top = none ↔ heap = [] := by
  cases heap with
  | nil => simp [MaxHeap.top]
  | cons x xs =>
    simp only [MaxHeap.top]
    cases MaxHeap.top xs with
    | none => simp
    | some m => by_cases h : pairLess m x = true <;> simp [h]

theorem MaxHeap.top_mem {heap : MaxHeap R} {m : PQItem R} (h : heap.top = some m) :
    m ∈ heap := by
  induction heap generalizing m with
  | nil => simp [MaxHeap.top] at h
  | cons x xs ih =>
    simp only [MaxHeap.top] at h
    cases hx : MaxHeap.top xs with
    | none =>
      rw [hx] at h
      simp only [Option.some.injEq] at h
      simp [h]
    | some m2 =>
      rw [hx] at h
      by_cases hl : pairLess m2 x = true
      · simp only [hl, if_true, Option.some.injEq] at h
        simp [h]
      · simp only [hl, Bool.false_eq_true, if_false, Option.some.injEq] at h
        subst h
        exact List.mem_cons_of_mem _ (ih hx)

/-- The distance of the top entry is the largest distance in the heap. -/
theorem MaxHeap.le_top {heap : MaxHeap R} {m : PQItem R} (h : heap.top = some m) :
    ∀ y ∈ heap, y.1 ≤ m.1 := by
  induction heap generalizing m with
  | nil => simp [MaxHeap.top] at h
  | cons x xs ih =>
    simp only [MaxHeap.top] at h
    cases hx : MaxHeap.top xs with
    | none =>
      rw [hx] at h
      simp only [Option.some.injEq] at h
      have hnil := (MaxHeap.top_eq_none_iff xs).mp hx
      subst hnil
      subst h
      intro y hy
      simp at hy
      rw [hy]
    | some m2 =>
      rw [hx] at h
      have ih2 := ih hx
      by_cases hl : pairLess m2 x = true
      · simp only [hl, if_true, Option.some.injEq] at h
        subst h
        have hle : m2.1 ≤ x.1 := by
          simp only [pairLess, decide_eq_true_eq] at hl
          rcases hl with hl | hl
          · exact le_of_lt hl
          · exact le_of_not_lt hl.1
        intro y hy
        rcases List.mem_cons.mp hy with rfl | hy
        · exact le_refl _
        · exact le_trans (ih2 y hy) hle
      · simp only [hl, Bool.false_eq_true, if_false, Option.some.injEq] at h
        subst h
        have hle : x.1 ≤ m2.1 := by
          simp only [pairLess, decide_eq_true_eq, not_or] at hl
          exact le_of_not_lt hl.1
        intro y hy
        rcases List.mem_cons.mp hy with rfl | hy
        · exact hle
        · exact ih2 y hy

theorem MaxHeap.pop_perm {heap : MaxHeap R} {m : PQItem R} (h : heap.top = some m) :
    heap.Perm (m :: heap.pop) := by
  have : heap.pop = @List.erase (PQItem R) instBEqOfDecidableEq heap m := by
    simp [MaxHeap.pop, MaxHeap.removeOne, h]
  rw [this]
  exact List.perm_cons_erase (MaxHeap.top_mem h)

theorem MaxHeap.pop_length {heap : MaxHeap R} {m : PQItem R} (h : heap.top = some m) :
    heap.pop.length + 1 = heap.length := by
  have := (MaxHeap.pop_perm h).length_eq
  simp at this
  omega

theorem MaxHeap.top_isSome_of_pos (heap : MaxHeap R) (h : 0 < heap.length) :
    ∃ m, heap.top = some m := by
  cases ht : heap.top with
  | none =>
    have := (MaxHeap.top_eq_none_iff heap).mp ht
    subst this
    simp at h
  | some m => exact ⟨m, rfl⟩

theorem drainFuel_perm : ∀ (fuel : Nat) (heap : MaxHeap R), heap.length ≤ fuel →
    (drainFuel fuel heap).Perm heap := by
  intro fuel
  induction fuel with
  | zero =>
    intro heap h
    have : heap = [] := List.length_eq_zero.mp (Nat.le_zero.mp h)
    subst this
    exact List.Perm.refl _
  | succ fuel ih =>
    intro heap h
    simp only [drainFuel]
    cases ht : heap.top with
    | none =>
      have := (MaxHeap.top_eq_none_iff heap).mp ht
      subst this
      exact List.Perm.refl _
    | some m =>
      have hl := MaxHeap.pop_length ht
      exact ((ih heap.pop (by omega)).cons m).trans (MaxHeap.pop_perm ht).symm

/-- Draining the heap yields all of its entries. -/
theorem drain_perm (heap : MaxHeap R) : (drain heap).Perm heap :=
  drainFuel_perm _ _ (le_refl _)

end HeapTheory

end KNN

namespace KNN

section SearchTheory

variable {R T : Type} [LinearOrderedField R]
variable {E : Embedding_T R T}

theorem Optimal.perm {K : Int} {seen seen2 heap : List (PQItem R)} (hp : seen.Perm seen2)
    (h : Optimal K seen heap) : Optimal K seen2 heap := by
  obtain ⟨rest, h1, h2, h3, h4⟩ := h
  exact ⟨rest, hp.symm.trans h1, h2, h3, h4⟩

theorem Optimal.nil (K : Int) (hK : 1 ≤ K) : Optimal K ([] : List (PQItem R)) [] :=
  ⟨[], List.Perm.refl _, by simp, by simp; omega, by simp⟩

/-- The step "consider this node" never reads the top of an empty heap when `K ≥ 1`, and
keeps the heap a best selection of the entries seen. -/
theorem consider_optimal {K : Int} (hK : 1 ≤ K) {seen : List (PQItem R)} {heap : MaxHeap R}
    (hopt : Optimal K seen heap) (d : R) (i : Int) :
    ∃ heap2, consider K heap d i = Except.ok heap2 ∧ Optimal K (seen ++ [(d, i)]) heap2 := by
  obtain ⟨rest, hp, hle, hlen, hfull⟩ := hopt
  unfold consider
  by_cases hlt : ((MaxHeap.size heap : Nat) : Int) < K
  · rw [if_pos hlt]
    have hrest : rest = [] := by
      by_contra hne
      have := hfull hne
      simp only [MaxHeap.size] at hlt
      omega
    subst hrest
    refine ⟨_, rfl, [], ?_, by simp, ?_, by simp⟩
    · simp only [MaxHeap.push, List.append_nil] at hp ⊢
      exact (hp.append_right _).trans (List.perm_append_singleton _ _)
    · simp only [MaxHeap.size] at hlt
      simp only [MaxHeap.push, List.length_cons, Nat.cast_add, Nat.cast_one]
      omega
  · rw [if_neg hlt]
    simp only [MaxHeap.size] at hlt
    have hK2 : (heap.length : Int) = K := by omega
    obtain ⟨t, ht⟩ := MaxHeap.top_isSome_of_pos heap (by omega)
    rw [ht]
    have htop := MaxHeap.le_top ht
    have hmem := MaxHeap.top_mem ht
    have hpop := MaxHeap.pop_perm ht
    by_cases hd : d < t.1
    · simp only [hd, if_true]
      refine ⟨_, rfl, t :: rest, ?_, ?_, ?_, ?_⟩
      · simp only [MaxHeap.push]
        have h1 : (seen ++ [(d, i)]).Perm ((t :: heap.pop) ++ rest ++ [(d, i)]) :=
          (hp.trans (hpop.append_right rest)).append_right _
        refine h1.trans ?_
        have h2 : ((t :: heap.pop) ++ rest ++ [(d, i)]).Perm
            ((d, i) :: ((t :: heap.pop) ++ rest)) := List.perm_append_singleton _ _
        refine h2.trans (List.Perm.cons _ ?_)
        simp only [List.cons_append]
        exact List.perm_middle.symm
      · intro y hy x hx
        simp only [MaxHeap.push] at hy
        rcases List.mem_cons.mp hy with rfl | hy
        · rcases List.mem_cons.mp hx with rfl | hx
          · exact le_of_lt hd
          · exact le_trans (le_of_lt hd) (hle t hmem x hx)
        · have hyh : y ∈ heap := hpop.symm.subset (List.mem_cons_of_mem _ hy)
          rcases List.mem_cons.mp hx with rfl | hx
          · exact htop y hyh
          · exact hle y hyh x hx
      · have := MaxHeap.pop_length ht
        simp only [MaxHeap.push, List.length_cons, Nat.cast_add, Nat.cast_one]
        omega
      · intro _
        have := MaxHeap.pop_length ht
        simp only [MaxHeap.push, List.length_cons, Nat.cast_add, Nat.cast_one]
        omega
    · simp only [hd, if_false]
      refine ⟨_, rfl, (d, i) :: rest, ?_, ?_, hlen, fun _ => hK2⟩
      · refine (hp.append_right _).trans ?_
        rw [List.append_assoc]
        exact List.Perm.append_left _ (List.perm_append_singleton _ _)
      · intro y hy x hx
        rcases List.mem_cons.mp hx with rfl | hx
        · exact le_trans (htop y hy) (le_of_not_lt hd)
        · exact hle y hy x hx

/-- Skipping entries that are no closer than any heap entry, with a full heap, keeps the
heap a best selection. -/
theorem Optimal.skip {K : Int} {seen heap far : List (PQItem R)} (hopt : Optimal K seen heap)
    (hfull : ¬ (heap.length : Int) < K) (hfar : ∀ x ∈ far, ∀ y ∈ heap, y.1 ≤ x.1) :
    Optimal K (seen ++ far) heap := by
  obtain ⟨rest, hp, hle, hlen, _⟩ := hopt
  refine ⟨rest ++ far, ?_, ?_, hlen, fun _ => by omega⟩
  · rw [← List.append_assoc]
    exact hp.append_right _
  · intro y hy x hx
    rcases List.mem_append.mp hx with hx | hx
    · exact hle y hy x hx
    · exact hfar x hx y hy

theorem le_of_not_lt_worstDist {heap : MaxHeap R} {delta : R}
    (h : ¬ (delta : WithTop R) < worstDist heap) : ∀ y ∈ heap, y.1 ≤ delta := by
  unfold worstDist at h
  cases ht : heap.top with
  | none =>
    rw [ht] at h
    exact absurd (WithTop.coe_lt_top delta) h
  | some t =>
    rw [ht] at h
    simp only [WithTop.coe_lt_coe, not_lt] at h
    intro y hy
    exact le_trans (MaxHeap.le_top ht y hy) h

/-- The far-side step of `knnSearch`: either the far child is searched, or it is skipped
with a full heap whose entries are all within `delta`, which bounds every far entry from
below. -/
theorem far_step_optimal {K : Int} {seen farEntries : List (PQItem R)} {heap : MaxHeap R}
    {delta : R}
    (far : Nat → Int → MaxHeap R → Except Fault (MaxHeap R)) (depth : Nat)
    (hopt : Optimal K seen heap)
    (hfar : ∀ seen heap, Optimal K seen heap →
      ∃ heap2, far (depth + 1) K heap = Except.ok heap2 ∧
        Optimal K (seen ++ farEntries) heap2)
    (hbound : ∀ x ∈ farEntries, delta ≤ x.1) :
    ∃ heap2,
      (if (heap.size : Int) < K ∨ (delta : WithTop R) < worstDist heap then
        far (depth + 1) K heap else Except.ok heap) = Except.ok heap2 ∧
      Optimal K (seen ++ farEntries) heap2 := by
  by_cases hc : (heap.size : Int) < K ∨ (delta : WithTop R) < worstDist heap
  · rw [if_pos hc]
    exact hfar seen heap hopt
  · rw [if_neg hc]
    rw [not_or] at hc
    refine ⟨heap, rfl, hopt.skip hc.1 ?_⟩
    intro x hx y hy
    exact le_trans (le_of_not_lt_worstDist hc.2 y hy) (hbound x hx)

omit [LinearOrderedField R] in
theorem entries_append (q : T) (a b : List (T × Int)) :
    entries E q (a ++ b) = entries E q a ++ entries E q b := by
  simp [entries]

omit [LinearOrderedField R] in
theorem mem_entries {q : T} {ps : List (T × Int)} {x : PQItem R} (h : x ∈ entries E q ps) :
    ∃ p ∈ ps, x.1 = E.distance p.1 q := by
  simp only [entries, List.mem_map] at h
  obtain ⟨p, hp, rfl⟩ := h
  exact ⟨p, hp, rfl⟩

/-- On a k-d ordered tree, with a policy that satisfies the pruning bound, `knnSearch` with
`K ≥ 1` returns a heap, and the heap is a best selection of the entries seen before together
with the entries of the whole tree. -/
theorem knnSearch_optimal (hE : AxisBound E) {K : Int} (hK : 1 ≤ K) (q : T) :
    ∀ (t : Node T) (depth : Nat) (seen heap : List (PQItem R)),
      KdOrdered E depth t → Optimal K seen heap →
      ∃ heap2, knnSearch E q t depth K heap = Except.ok heap2 ∧
        Optimal K (seen ++ entries E q t.items) heap2 := by
  intro t
  induction t with
  | null =>
    intro depth seen heap _ hopt
    exact ⟨heap, rfl, by simpa [entries, Node.items] using hopt⟩
  | node e i l r ihl ihr =>
    intro depth seen heap hord hopt
    obtain ⟨hleft, hright, hol, hor⟩ := hord
    obtain ⟨h1, hc1, hopt1⟩ := consider_optimal hK hopt (E.distance e q) i
    simp only [knnSearch, hc1]
    have hitems : (seen ++ entries E q (Node.node e i l r).items).Perm
        (seen ++ [(E.distance e q, i)] ++ entries E q l.items ++ entries E q r.items) := by
      simp only [Node.items, entries_append, List.append_assoc]
      refine List.Perm.append_left _ ?_
      simp only [entries, List.map_cons, entry, List.singleton_append]
      exact List.perm_middle
    by_cases hgo : E.getCoordinate q (depth % E.Dim) < E.getCoordinate e (depth % E.Dim)
    · simp only [hgo, decide_True, if_true]
      obtain ⟨h2, hc2, hopt2⟩ := ihl (depth + 1) _ h1 hol hopt1
      rw [hc2]
      simp only
      have hb : ∀ x ∈ entries E q r.items,
          |E.getCoordinate q (depth % E.Dim) - E.getCoordinate e (depth % E.Dim)| ≤ x.1 := by
        intro x hx
        obtain ⟨p, hp, hxp⟩ := mem_entries hx
        rw [hxp]
        refine le_trans ?_ (hE p.1 q (depth % E.Dim))
        have := hright p hp
        rw [abs_of_neg (by linarith), abs_of_neg (by linarith)]
        linarith
      obtain ⟨h3, hc3, hopt3⟩ := far_step_optimal (knnSearch E q r) depth hopt2
        (fun s h ho => ihr (depth + 1) s h hor ho) hb
      exact ⟨h3, hc3, hopt3.perm hitems.symm⟩
    · simp only [hgo, decide_False, Bool.false_eq_true, if_false]
      obtain ⟨h2, hc2, hopt2⟩ := ihr (depth + 1) _ h1 hor hopt1
      rw [hc2]
      simp only
      have hb : ∀ x ∈ entries E q l.items,
          |E.getCoordinate q (depth % E.Dim) - E.getCoordinate e (depth % E.Dim)| ≤ x.1 := by
        intro x hx
        obtain ⟨p, hp, hxp⟩ := mem_entries hx
        rw [hxp]
        refine le_trans ?_ (hE p.1 q (depth % E.Dim))
        have := hleft p hp
        have hge := le_of_not_lt hgo
        rw [abs_of_nonneg (by linarith), abs_of_nonneg (by linarith)]
        linarith
      obtain ⟨h3, hc3, hopt3⟩ := far_step_optimal (knnSearch E q l) depth hopt2
        (fun s h ho => ihl (depth + 1) s h hol ho) hb
      refine ⟨h3, hc3, hopt3.perm ?_⟩
      refine List.Perm.trans ?_ hitems.symm
      simp only [List.append_assoc]
      refine List.Perm.append_left _ (List.Perm.append_left _ List.perm_append_comm)

end SearchTheory

end KNN

namespace KNN

section PolicyTheory

variable {R : Type} [LinearOrderedField R]

/-- The scalar policy satisfies the pruning bound (with equality). -/
theorem scalarEmbedding_axisBound : AxisBound (scalarEmbedding R) := by
  intro p q axis
  show |q - p| ≤ |p - q|
  rw [abs_sub_comm]

theorem foldl_add_eq_sum {ι : Type} (f : ι → R) (l : List ι) (c : R) :
    l.foldl (fun s i => s + f i) c = c + (l.map f).sum := by
  induction l generalizing c with
  | nil => simp
  | cons x xs ih => simp [ih, add_assoc]

theorem sumSquares_eq_sum {N : Nat} (a b : Fin N → R) :
    sumSquares a b = ((List.finRange N).map fun i => (a i - b i) * (a i - b i)).sum := by
  unfold sumSquares
  rw [foldl_add_eq_sum, zero_add]

theorem sq_le_sumSquares {N : Nat} (a b : Fin N → R) (k : Fin N) :
    (a k - b k) * (a k - b k) ≤ sumSquares a b := by
  rw [sumSquares_eq_sum]
  apply List.single_le_sum
  · intro x hx
    obtain ⟨i, _, rfl⟩ := List.mem_map.mp hx
    exact mul_self_nonneg _
  · exact List.mem_map.mpr ⟨k, List.mem_finRange k, rfl⟩

/-- The array policy with the real square root satisfies the pruning bound. -/
theorem arrayEmbedding_axisBound (N : Nat) : AxisBound (arrayEmbedding Real.sqrt N) := by
  intro p q axis
  show |(if h : axis < N then q ⟨axis, h⟩ else 0) - (if h : axis < N then p ⟨axis, h⟩ else 0)|
    ≤ Real.sqrt (sumSquares p q)
  by_cases h : axis < N
  · simp only [h, dite_true]
    apply Real.abs_le_sqrt
    have := sq_le_sumSquares p q ⟨axis, h⟩
    nlinarith [this]
  · simp only [h, dite_false, sub_self, abs_zero]
    exact Real.sqrt_nonneg _

end PolicyTheory

section OptimalTheory

variable {R T : Type} [LinearOrderedField R]

theorem Optimal.length_eq {K : Int} {seen heap : List (PQItem R)} (h : Optimal K seen heap) :
    (heap.length : Int) = min K seen.length := by
  obtain ⟨rest, hp, _, hlen, hfull⟩ := h
  have hl := hp.length_eq
  rw [List.length_append] at hl
  by_cases hr : rest = []
  · subst hr
    simp only [List.length_nil, add_zero] at hl
    rw [hl]
    omega
  · have := hfull hr
    have : 0 < rest.length := List.length_pos.mpr hr
    omega

/-- The distances of a best selection are the first entries of the ascending list of all
distances seen. -/
theorem Optimal.sorted_dists {K : Int} {seen heap : List (PQItem R)}
    (h : Optimal K seen heap) :
    (heap.map Prod.fst).insertionSort (· ≤ ·) =
      ((seen.map Prod.fst).insertionSort (· ≤ ·)).take heap.length := by
  obtain ⟨rest, hp, hle, _, _⟩ := h
  have hs : (seen.map Prod.fst).insertionSort (· ≤ ·) =
      (heap.map Prod.fst).insertionSort (· ≤ ·) ++
        (rest.map Prod.fst).insertionSort (· ≤ ·) := by
    apply List.eq_of_perm_of_sorted (r := (· ≤ ·))
    · refine (List.perm_insertionSort _ _).trans ?_
      refine ((hp.map Prod.fst).trans ?_)
      rw [List.map_append]
      exact ((List.perm_insertionSort _ _).append (List.perm_insertionSort _ _)).symm
    · exact List.sorted_insertionSort _ _
    · refine List.pairwise_append.mpr
        ⟨List.sorted_insertionSort _ _, List.sorted_insertionSort _ _, ?_⟩
      intro a ha b hb
      have ha2 := (List.perm_insertionSort _ _).subset ha
      have hb2 := (List.perm_insertionSort _ _).subset hb
      obtain ⟨y, hy, rfl⟩ := List.mem_map.mp ha2
      obtain ⟨x, hx, rfl⟩ := List.mem_map.mp hb2
      exact hle y hy x hx
  rw [hs, List.take_left']
  rw [(List.perm_insertionSort _ _).length_eq, List.length_map]

omit [LinearOrderedField R] in
theorem entries_map_fst (E : Embedding_T R T) (q : T) (ps : List (T × Int)) :
    (entries E q ps).map Prod.fst = ps.map fun p => E.distance p.1 q := by
  simp [entries, entry, Function.comp_def]

/-- The distances of a best selection are, up to order, the `K` smallest distances seen. -/
theorem Optimal.perm_take {K : Int} (hK : 1 ≤ K) {seen heap : List (PQItem R)}
    (h : Optimal K seen heap) :
    (heap.map Prod.fst).Perm (((seen.map Prod.fst).insertionSort (· ≤ ·)).take K.toNat) := by
  have hlen := h.length_eq
  have hs := h.sorted_dists
  have htake : ∀ l : List R, l.length = seen.length →
      l.take heap.length = l.take K.toNat := by
    intro l hll
    by_cases hc : K ≤ seen.length
    · have : heap.length = K.toNat := by omega
      rw [this]
    · have h1 : heap.length = seen.length := by omega
      rw [List.take_of_length_le (by omega), List.take_of_length_le (by omega)]
  rw [htake _ (by rw [(List.perm_insertionSort _ _).length_eq, List.length_map])] at hs
  rw [← hs]
  exact (List.perm_insertionSort _ _).symm

/-- The distances of a best selection of the entries of `points` are, up to order, the
brute-force result. -/
theorem Optimal.perm_bruteForce {E : Embedding_T R T} {q : T} {K : Int} (hK : 1 ≤ K)
    {points : List (T × Int)} {heap : List (PQItem R)}
    (h : Optimal K (entries E q points) heap) :
    (heap.map Prod.fst).Perm (bruteForce E q K.toNat points) := by
  have hp := h.perm_take hK
  rw [entries_map_fst] at hp
  exact hp

end OptimalTheory

section SizeTheory

variable {R T : Type} [LinearOrderedField R]
variable {E : Embedding_T R T}

theorem consider_length {K : Int} (hK : 1 ≤ K) {heap : MaxHeap R}
    (hlen : (heap.length : Int) ≤ K) (d : R) (i : Int) :
    ∃ heap2, consider K heap d i = Except.ok heap2 ∧
      (heap2.length : Int) = min K (heap.length + 1) := by
  unfold consider
  by_cases hlt : ((MaxHeap.size heap : Nat) : Int) < K
  · rw [if_pos hlt]
    refine ⟨_, rfl, ?_⟩
    simp only [MaxHeap.size] at hlt
    simp only [MaxHeap.push, List.length_cons, Nat.cast_add, Nat.cast_one]
    omega
  · rw [if_neg hlt]
    simp only [MaxHeap.size] at hlt
    obtain ⟨t, ht⟩ := MaxHeap.top_isSome_of_pos heap (by omega)
    rw [ht]
    have := MaxHeap.pop_length ht
    by_cases hd : d < t.1
    · simp only [hd, if_true]
      refine ⟨_, rfl, ?_⟩
      simp only [MaxHeap.push, List.length_cons, Nat.cast_add, Nat.cast_one]
      omega
    · simp only [hd, if_false]
      exact ⟨_, rfl, by omega⟩

/-- For `K ≥ 1` and a heap of at most `K` entries, `knnSearch` on any tree returns a heap,
of `min K (heap.size() + number of nodes)` entries. -/
theorem knnSearch_length {K : Int} (hK : 1 ≤ K) (q : T) :
    ∀ (t : Node T) (depth : Nat) (heap : MaxHeap R), (heap.length : Int) ≤ K →
      ∃ heap2, knnSearch E q t depth K heap = Except.ok heap2 ∧
        (heap2.length : Int) = min K (heap.length + t.size) := by
  intro t
  induction t with
  | null =>
    intro depth heap hlen
    exact ⟨heap, rfl, by simp only [Node.size]; omega⟩
  | node e i l r ihl ihr =>
    intro depth heap hlen
    obtain ⟨h1, hc1, hl1⟩ := consider_length hK hlen (E.distance e q) i
    simp only [knnSearch, hc1]
    have key : ∀ (near far : Node T),
        (∀ (depth : Nat) (heap : MaxHeap R), (heap.length : Int) ≤ K →
          ∃ heap2, knnSearch E q near depth K heap = Except.ok heap2 ∧
            (heap2.length : Int) = min K (heap.length + near.size)) →
        (∀ (depth : Nat) (heap : MaxHeap R), (heap.length : Int) ≤ K →
          ∃ heap2, knnSearch E q far depth K heap = Except.ok heap2 ∧
            (heap2.length : Int) = min K (heap.length + far.size)) →
        ∃ heap2,
          (match knnSearch E q near (depth + 1) K h1 with
          | Except.error f => Except.error f
          | Except.ok heap =>
            if (heap.size : Int) < K ∨
                ((|E.getCoordinate q (depth % E.Dim) - E.getCoordinate e (depth % E.Dim)| : R) :
                  WithTop R) < worstDist heap then
              knnSearch E q far (depth + 1) K heap
            else Except.ok heap) = Except.ok heap2 ∧
          (heap2.length : Int) = min K (heap.length + (near.size + 1 + far.size)) := by
      intro near far hn hf
      obtain ⟨h2, hc2, hl2⟩ := hn (depth + 1) h1 (by omega)
      rw [hc2]
      simp only
      split_ifs with hc
      · obtain ⟨h3, hc3, hl3⟩ := hf (depth + 1) h2 (by omega)
        exact ⟨h3, hc3, by omega⟩
      · rw [not_or] at hc
        have := hc.1
        simp only [MaxHeap.size] at this
        exact ⟨h2, rfl, by omega⟩
    by_cases hgo : E.getCoordinate q (depth % E.Dim) < E.getCoordinate e (depth % E.Dim)
    · simp only [hgo, decide_True, if_true]
      obtain ⟨h3, hc3, hl3⟩ := key l r ihl ihr
      exact ⟨h3, hc3, by simp only [Node.size]; exact hl3⟩
    · simp only [hgo, decide_False, Bool.false_eq_true, if_false]
      obtain ⟨h3, hc3, hl3⟩ := key r l ihr ihl
      exact ⟨h3, hc3, by simp only [Node.size]; push_cast at *; omega⟩

end SizeTheory

end KNN

namespace KNN

section LibraryTheory

variable {R T : Type} [LinearOrderedField R]

/-- Sorting the whole vector by insertion meets the `std::nth_element` postcondition. -/
theorem nthBySort_post (E : Embedding_T R T) : NthElementPost E nthBySort := by
  intro axis mid items _
  haveI : IsTotal (T × Int) (fun a b => cmpAxis E axis b a = false) :=
    ⟨fun a b => by
      simp only [cmpAxis, decide_eq_false_iff_not, not_lt]
      exact le_total _ _⟩
  haveI : IsTrans (T × Int) (fun a b => cmpAxis E axis b a = false) :=
    ⟨fun a b c hab hbc => by
      simp only [cmpAxis, decide_eq_false_iff_not, not_lt] at *
      exact le_trans hab hbc⟩
  have hsorted : List.Sorted (fun a b => cmpAxis E axis b a = false)
      (nthBySort (cmpAxis E axis) mid items) :=
    List.sorted_insertionSort _ _
  refine ⟨List.perm_insertionSort _ _, ?_⟩
  intro i j a b hi hj ha hb
  obtain ⟨hil, rfl⟩ := List.getElem?_eq_some.mp ha
  obtain ⟨hjl, rfl⟩ := List.getElem?_eq_some.mp hb
  rcases Nat.eq_or_lt_of_le (le_trans hi hj) with h | h
  · subst h
    simp [cmpAxis]
  · exact List.pairwise_iff_getElem.mp hsorted i j hil hjl h

/-- Sorting by insertion meets the `std::sort` postcondition. -/
theorem insertionSortBy_sortPost : SortPost (R := R) insertionSortBy := by
  intro out
  haveI : IsTotal (PQItem R) (fun a b => cmpDist b a = false) :=
    ⟨fun a b => by
      simp only [cmpDist, decide_eq_false_iff_not, not_lt]
      exact le_total _ _⟩
  haveI : IsTrans (PQItem R) (fun a b => cmpDist b a = false) :=
    ⟨fun a b c hab hbc => by
      simp only [cmpDist, decide_eq_false_iff_not, not_lt] at *
      exact le_trans hab hbc⟩
  exact ⟨List.perm_insertionSort _ _, List.sorted_insertionSort _ _⟩

end LibraryTheory

section VisitTheory

variable {R T : Type} [LinearOrderedField R]
variable {E : Embedding_T R T}

theorem considerAll_append (K : Int) (heap : MaxHeap R) (xs ys : List (PQItem R)) :
    considerAll K heap (xs ++ ys) =
      match considerAll K heap xs with
      | Except.error f => Except.error f
      | Except.ok heap2 => considerAll K heap2 ys := by
  induction xs generalizing heap with
  | nil => rfl
  | cons x xs ih =>
    simp only [List.cons_append, considerAll]
    cases consider K heap x.1 x.2 with
    | error f => rfl
    | ok h => exact ih h

/-- Offering a sequence of entries one after the other keeps the heap a best selection of
everything seen. -/
theorem considerAll_optimal {K : Int} (hK : 1 ≤ K) (xs : List (PQItem R)) :
    ∀ (seen : List (PQItem R)) (heap : MaxHeap R), Optimal K seen heap →
      ∃ heap2, considerAll K heap xs = Except.ok heap2 ∧ Optimal K (seen ++ xs) heap2 := by
  induction xs with
  | nil =>
    intro seen heap h
    exact ⟨heap, rfl, by simpa using h⟩
  | cons x xs ih =>
    intro seen heap h
    obtain ⟨h1, hc1, ho1⟩ := consider_optimal hK h x.1 x.2
    obtain ⟨h2, hc2, ho2⟩ := ih _ h1 ho1
    refine ⟨h2, ?_, ?_⟩
    · simp only [considerAll, hc1]
      exact hc2
    · simpa using ho2

/-- The instrumented search returns the heap of `knnSearch`; that heap is the result of
offering the logged entries in order; and no more entries are logged than the tree has
nodes. -/
theorem knnSearchLog_spec {K : Int} (hK : 1 ≤ K) (q : T) :
    ∀ (t : Node T) (depth : Nat) (heap : MaxHeap R), (heap.length : Int) ≤ K →
      ∃ (heap2 : MaxHeap R) (log : List (PQItem R)),
        knnSearchLog E q t depth K heap = Except.ok (heap2, log) ∧
        knnSearch E q t depth K heap = Except.ok heap2 ∧
        considerAll K heap log = Except.ok heap2 ∧
        log.length ≤ t.size := by
  intro t
  induction t with
  | null =>
    intro depth heap _
    exact ⟨heap, [], rfl, rfl, rfl, le_refl _⟩
  | node e i l r ihl ihr =>
    intro depth heap hlen
    obtain ⟨h1, hc1, hl1⟩ := consider_length hK hlen (E.distance e q) i
    have key : ∀ (near far : Node T),
        (∀ (depth : Nat) (heap : MaxHeap R), (heap.length : Int) ≤ K →
          ∃ (heap2 : MaxHeap R) (log : List (PQItem R)),
            knnSearchLog E q near depth K heap = Except.ok (heap2, log) ∧
            knnSearch E q near depth K heap = Except.ok heap2 ∧
            considerAll K heap log = Except.ok heap2 ∧ log.length ≤ near.size) →
        (∀ (depth : Nat) (heap : MaxHeap R), (heap.length : Int) ≤ K →
          ∃ (heap2 : MaxHeap R) (log : List (PQItem R)),
            knnSearchLog E q far depth K heap = Except.ok (heap2, log) ∧
            knnSearch E q far depth K heap = Except.ok heap2 ∧
            considerAll K heap log = Except.ok heap2 ∧ log.length ≤ far.size) →
        ∃ (heap2 : MaxHeap R) (log : List (PQItem R)),
          (match knnSearchLog E q near (depth + 1) K h1 with
          | Except.error f => Except.error f
          | Except.ok (heap, nearLog) =>
            if (heap.size : Int) < K ∨
                ((|E.getCoordinate q (depth % E.Dim) - E.getCoordinate e (depth % E.Dim)| : R) :
                  WithTop R) < worstDist heap then
              match knnSearchLog E q far (depth + 1) K heap with
              | Except.error f => Except.error f
              | Except.ok (heap, farLog) =>
                Except.ok (heap, (E.distance e q, i) :: nearLog ++ farLog)
            else Except.ok (heap, (E.distance e q, i) :: nearLog)) = Except.ok (heap2, log) ∧
          (match knnSearch E q near (depth + 1) K h1 with
          | Except.error f => Except.error f
          | Except.ok heap =>
            if (heap.size : Int) < K ∨
                ((|E.getCoordinate q (depth % E.Dim) - E.getCoordinate e (depth % E.Dim)| : R) :
                  WithTop R) < worstDist heap then
              knnSearch E q far (depth + 1) K heap
            else Except.ok heap) = Except.ok heap2 ∧
          considerAll K heap log = Except.ok heap2 ∧
          log.length ≤ near.size + 1 + far.size := by
      intro near far hn hf
      obtain ⟨h2, log2, hlg2, hs2, hca2, hll2⟩ := hn (depth + 1) h1 (by omega)
      obtain ⟨h2b, hs2b, hl2⟩ := knnSearch_length (E := E) hK q near (depth + 1) h1 (by omega)
      have hh : h2b = h2 := by
        rw [hs2] at hs2b
        exact (Except.ok.inj hs2b).symm
      subst hh
      rw [hlg2, hs2]
      simp only
      split_ifs with hc
      · obtain ⟨h3, log3, hlg3, hs3, hca3, hll3⟩ := hf (depth + 1) h2b (by omega)
        rw [hlg3]
        refine ⟨h3, _, rfl, hs3, ?_, ?_⟩
        · rw [considerAll_append]
          simp only [considerAll, hc1, hca2]
          exact hca3
        · simp only [List.length_cons, List.length_append]
          omega
      · refine ⟨h2b, _, rfl, rfl, ?_, ?_⟩
        · simp only [considerAll, hc1]
          exact hca2
        · simp only [List.length_cons]
          omega
    simp only [knnSearchLog, knnSearch, hc1]
    by_cases hgo : E.getCoordinate q (depth % E.Dim) < E.getCoordinate e (depth % E.Dim)
    · simp only [hgo, decide_True, if_true]
      obtain ⟨h3, log, a, b, c, d⟩ := key l r ihl ihr
      exact ⟨h3, log, a, b, c, by simp only [Node.size]; exact d⟩
    · simp only [hgo, decide_False, Bool.false_eq_true, if_false]
      obtain ⟨h3, log, a, b, c, d⟩ := key r l ihr ihl
      exact ⟨h3, log, a, b, c, by simp only [Node.size]; omega⟩

/-- In a full best selection the top of the heap carries the `K`-th smallest distance
seen. -/
theorem Optimal.top_kth {K : Int} (hK : 1 ≤ K) {seen : List (PQItem R)} {heap : MaxHeap R}
    (h : Optimal K seen heap) (hfull : (heap.length : Int) = K) :
    ∃ t, heap.top = some t ∧
      ((seen.map Prod.fst).insertionSort (· ≤ ·))[K.toNat - 1]? = some t.1 := by
  obtain ⟨t, ht⟩ := MaxHeap.top_isSome_of_pos heap (by omega)
  refine ⟨t, ht, ?_⟩
  have hs := h.sorted_dists
  have hperm : ((heap.map Prod.fst).insertionSort (· ≤ ·)).Perm (heap.map Prod.fst) :=
    List.perm_insertionSort _ _
  have hsorted : List.Sorted (· ≤ ·) ((heap.map Prod.fst).insertionSort (· ≤ ·)) :=
    List.sorted_insertionSort _ _
  have hlenL : ((heap.map Prod.fst).insertionSort (· ≤ ·)).length = heap.length := by
    rw [hperm.length_eq, List.length_map]
  have hk : K.toNat - 1 < ((heap.map Prod.fst).insertionSort (· ≤ ·)).length := by omega
  have hlast : ((heap.map Prod.fst).insertionSort (· ≤ ·))[K.toNat - 1] = t.1 := by
    apply le_antisymm
    · have hm : ((heap.map Prod.fst).insertionSort (· ≤ ·))[K.toNat - 1] ∈
          heap.map Prod.fst := hperm.subset (List.getElem_mem _)
      obtain ⟨y, hy, hye⟩ := List.mem_map.mp hm
      rw [← hye]
      exact MaxHeap.le_top ht y hy
    · have hm : t.1 ∈ (heap.map Prod.fst).insertionSort (· ≤ ·) :=
        hperm.symm.subset (List.mem_map.mpr ⟨t, MaxHeap.top_mem ht, rfl⟩)
      obtain ⟨j, hj, hje⟩ := List.getElem_of_mem hm
      rw [← hje]
      rcases Nat.eq_or_lt_of_le (show j ≤ K.toNat - 1 by omega) with hjk | hjk
      · subst hjk
        exact le_refl _
      · exact List.pairwise_iff_getElem.mp hsorted j (K.toNat - 1) hj hk hjk
  have h2 : ((heap.map Prod.fst).insertionSort (· ≤ ·))[K.toNat - 1]? = some t.1 := by
    rw [List.getElem?_eq_getElem hk, hlast]
  rw [hs, List.getElem?_take_of_lt (by omega)] at h2
  exact h2

end VisitTheory

end KNN

namespace KNN

section ClaimLemmas

variable {R T : Type} [LinearOrderedField R]
variable {E : Embedding_T R T}
variable {nth : (T × Int → T × Int → Bool) → Nat → List (T × Int) → List (T × Int)}

/-- Completeness for any policy that satisfies the pruning bound. -/
theorem searchComplete_of_axisBound (hE : AxisBound E) (hsel : NthElementPost E nth)
    (q : T) {K : Int} (hK : 1 ≤ K) (points : List (T × Int)) :
    SearchComplete E nth q K points := by
  obtain ⟨heap, hs, hopt⟩ := knnSearch_optimal hE hK q (buildKD E nth points 0) 0 [] []
    (buildKD_kdOrdered hsel points 0) (Optimal.nil K hK)
  have hopt2 : Optimal K (entries E q points) heap := by
    refine hopt.perm ?_
    rw [List.nil_append]
    exact (buildKD_items_perm hsel points 0).map _
  refine ⟨heap, hs, ?_, hopt2.perm_bruteForce hK⟩
  obtain ⟨rest, hp, hle, _, _⟩ := hopt2
  exact ⟨rest, hp, hle⟩

/-- With `K ≤ 0` the first visited node reads the top of an empty heap. -/
theorem knnSearch_nonpos_faults (q : T) {K : Int} (hK : K ≤ 0) (e : T) (i : Int)
    (l r : Node T) (depth : Nat) :
    knnSearch E q (Node.node e i l r) depth K [] = Except.error Fault.emptyTop := by
  have hc : consider K ([] : MaxHeap R) (E.distance e q) i = Except.error Fault.emptyTop := by
    unfold consider
    rw [if_neg (by simp only [MaxHeap.size, List.length_nil, Nat.cast_zero]; omega)]
    rfl
  simp only [knnSearch, hc]

theorem searchSorted_ok (sort : (PQItem R → PQItem R → Bool) → List (PQItem R) →
    List (PQItem R)) (q : T) {K : Int} (hK : 1 ≤ K) (t : Node T) :
    ∃ heap, knnSearch E q t 0 K [] = Except.ok heap ∧
      searchSorted E sort q K t = Except.ok (sort cmpDist (drain heap)) ∧
      (heap.length : Int) = min K t.size := by
  obtain ⟨heap, hs, hl⟩ := knnSearch_length (E := E) hK q t 0 [] (by simp; omega)
  refine ⟨heap, hs, ?_, by simpa using hl⟩
  simp only [searchSorted, hs]

end ClaimLemmas

section Claims

/-- C1. Completeness: in scalar mode over any ordered field, and in array mode of any
dimension `N ≥ 1` over the reals with the real square root, for every list of points, every
query and every `K ≥ 1`, `knnSearch` from an empty heap on `buildKD(points)` returns a heap
such that every point entry outside the heap is at least as far as every heap entry, and the
heap's distances are, as a multiset, the `min(K, N)` smallest of the brute-force scan. -/
theorem knnSearch_complete :
    (∀ (R : Type) [LinearOrderedField R]
        (nth : (R × Int → R × Int → Bool) → Nat → List (R × Int) → List (R × Int))
        (q : R) (K : Int) (points : List (R × Int)),
        NthElementPost (scalarEmbedding R) nth → 1 ≤ K →
        SearchComplete (scalarEmbedding R) nth q K points) ∧
    (∀ (N : Nat)
        (nth : ((Fin N → ℝ) × Int → (Fin N → ℝ) × Int → Bool) → Nat →
          List ((Fin N → ℝ) × Int) → List ((Fin N → ℝ) × Int))
        (q : Fin N → ℝ) (K : Int) (points : List ((Fin N → ℝ) × Int)),
        1 ≤ N → NthElementPost (arrayEmbedding Real.sqrt N) nth → 1 ≤ K →
        SearchComplete (arrayEmbedding Real.sqrt N) nth q K points) :=
  ⟨fun _ _ _ q _ points hsel hK =>
      searchComplete_of_axisBound scalarEmbedding_axisBound hsel q hK points,
    fun N _ q _ points _ hsel hK =>
      searchComplete_of_axisBound (arrayEmbedding_axisBound N) hsel q hK points⟩

/-- Witness of C1: scalar mode over the rationals on four points with `K = 2`, and array
mode of dimension 2 over the reals on two points with `K = 1`. -/
theorem knnSearch_complete_witness :
    (NthElementPost (scalarEmbedding ℚ) nthBySort ∧ (1 : Int) ≤ 2 ∧
      SearchComplete (scalarEmbedding ℚ) nthBySort 1 2 [(0, 1), (5, 2), (2, 3), (9, 4)]) ∧
    ((1 : Nat) ≤ 2 ∧ NthElementPost (arrayEmbedding Real.sqrt 2) nthBySort ∧ (1 : Int) ≤ 1 ∧
      SearchComplete (arrayEmbedding Real.sqrt 2) nthBySort (fun _ => 0) 1
        [(fun _ => 3, 7), (fun _ => 1, 8)]) :=
  ⟨⟨nthBySort_post _, by decide,
      knnSearch_complete.1 ℚ nthBySort 1 2 [(0, 1), (5, 2), (2, 3), (9, 4)]
        (nthBySort_post _) (by decide)⟩,
    ⟨by decide, nthBySort_post _, by decide,
      knnSearch_complete.2 2 nthBySort (fun _ => 0) 1 [(fun _ => 3, 7), (fun _ => 1, 8)]
        (by decide) (nthBySort_post _) (by decide)⟩⟩

/-- C2. Result size: for every list of `N ≥ 0` points and every `K ≥ 1`, `runMain` returns a
sequence (it does not fail), and its length is `min(K, N)`. -/
theorem runMain_length {R T : Type} [LinearOrderedField R] (E : Embedding_T R T)
    (nth : (T × Int → T × Int → Bool) → Nat → List (T × Int) → List (T × Int))
    (sort : (PQItem R → PQItem R → Bool) → List (PQItem R) → List (PQItem R))
    (q : T) (K : Int) (points : List (T × Int))
    (hsel : NthElementPost E nth) (hsort : SortPost sort) (hK : 1 ≤ K) :
    ∃ out, runMain E nth sort q K points = Except.ok out ∧
      (out.length : Int) = min K points.length := by
  obtain ⟨heap, _, hr, hl⟩ := searchSorted_ok (E := E) sort q hK (buildKD E nth points 0)
  refine ⟨_, hr, ?_⟩
  rw [((hsort (drain heap)).1.trans (drain_perm heap)).length_eq, hl, buildKD_size hsel]

/-- Witness of C2: two points and `K = 5`, more than there are points. -/
theorem runMain_length_witness :
    NthElementPost (scalarEmbedding ℚ) nthBySort ∧ SortPost (R := ℚ) insertionSortBy ∧
    (1 : Int) ≤ 5 ∧
    ∃ out, runMain (scalarEmbedding ℚ) nthBySort insertionSortBy 1 5 [(0, 1), (5, 2)] =
        Except.ok out ∧
      (out.length : Int) = min 5 ([(0, 1), (5, 2)] : List (ℚ × Int)).length :=
  ⟨nthBySort_post _, insertionSortBy_sortPost, by decide,
    runMain_length (scalarEmbedding ℚ) nthBySort insertionSortBy 1 5 [(0, 1), (5, 2)]
      (nthBySort_post _) insertionSortBy_sortPost (by decide)⟩

/-- C3. Ascending order: for every tree, query and `K ≥ 1`, the search returns a sequence
(heap drained and sorted by the distance comparator) whose distances are non-decreasing:
`out[i].distance ≤ out[j].distance` for all positions `i < j`. -/
theorem searchSorted_ascending {R T : Type} [LinearOrderedField R] (E : Embedding_T R T)
    (sort : (PQItem R → PQItem R → Bool) → List (PQItem R) → List (PQItem R))
    (q : T) (K : Int) (t : Node T) (hsort : SortPost sort) (hK : 1 ≤ K) :
    ∃ out, searchSorted E sort q K t = Except.ok out ∧
      ∀ (i j : Nat) (a b : PQItem R), i < j → out[i]? = some a → out[j]? = some b →
        a.1 ≤ b.1 := by
  obtain ⟨heap, _, hr, _⟩ := searchSorted_ok (E := E) sort q hK t
  refine ⟨_, hr, ?_⟩
  intro i j a b hij ha hb
  obtain ⟨hil, rfl⟩ := List.getElem?_eq_some.mp ha
  obtain ⟨hjl, rfl⟩ := List.getElem?_eq_some.mp hb
  have h := List.pairwise_iff_getElem.mp (hsort (drain heap)).2 i j hil hjl hij
  simpa [cmpDist] using h

/-- Witness of C3: a three-node tree searched with `K = 2`. -/
theorem searchSorted_ascending_witness :
    SortPost (R := ℚ) insertionSortBy ∧ (1 : Int) ≤ 2 ∧
    ∃ out, searchSorted (scalarEmbedding ℚ) insertionSortBy 1 2
        (Node.node 5 2 (Node.node 2 3 Node.null Node.null)
          (Node.node 9 4 Node.null Node.null)) = Except.ok out ∧
      ∀ (i j : Nat) (a b : PQItem ℚ), i < j → out[i]? = some a → out[j]? = some b →
        a.1 ≤ b.1 :=
  ⟨insertionSortBy_sortPost, by decide,
    searchSorted_ascending (scalarEmbedding ℚ) insertionSortBy 1 2 _
      insertionSortBy_sortPost (by decide)⟩

end Claims

end KNN

namespace KNN

section ClaimLemmas2

variable {R T : Type} [LinearOrderedField R]
variable {E : Embedding_T R T}

/-- A k-d ordered tree is k-d ordered at each of its subtrees, at the subtree's depth. -/
theorem KdOrdered.of_mem_subtreesAt : ∀ (t : Node T) (k d : Nat) (s : Node T),
    KdOrdered E k t → s ∈ t.subtreesAt d → KdOrdered E (k + d) s := by
  intro t
  induction t with
  | null =>
    intro k d s h hs
    cases d with
    | zero =>
      simp only [Node.subtreesAt, List.mem_singleton] at hs
      subst hs
      exact h
    | succ d => simp [Node.subtreesAt] at hs
  | node e i l r ihl ihr =>
    intro k d s h hs
    cases d with
    | zero =>
      simp only [Node.subtreesAt, List.mem_singleton] at hs
      subst hs
      exact h
    | succ d =>
      simp only [Node.subtreesAt, List.mem_append] at hs
      have e1 : k + (d + 1) = k + 1 + d := by omega
      rw [e1]
      rcases hs with hs | hs
      · exact ihl (k + 1) d s h.2.2.1 hs
      · exact ihr (k + 1) d s h.2.2.2 hs

end ClaimLemmas2

section Claims2

/-- C4, counterexample. With a sort that leaves entries of equal distance in the order in
which the heap was drained (insertion sort, an admissible `std::sort`), the example scenario
yields `[(1, id=3), (1, id=1)]`, which is not the claimed sequence
`[(1, id=1), (1, id=3)]`. -/
theorem example_scenario_order_counterexample :
    NthElementPost (scalarEmbedding ℚ) nthBySort ∧ SortPost (R := ℚ) insertionSortBy ∧
    runMain (scalarEmbedding ℚ) nthBySort insertionSortBy 1 2 examplePoints =
      Except.ok [(1, 3), (1, 1)] ∧
    runMain (scalarEmbedding ℚ) nthBySort insertionSortBy 1 2 examplePoints ≠
      Except.ok [(1, 1), (1, 3)] :=
  ⟨nthBySort_post _, insertionSortBy_sortPost, by decide!, by decide!⟩

/-- C4, amended. In the example scenario (points `examplePoints`, query 1, `K = 2`), for
any admissible `std::nth_element` and `std::sort`, the result has exactly the two entries
`(1, id=1)` and `(1, id=3)`, in some order, so its distances are `[1, 1]`. -/
theorem example_scenario_entries
    (nth : (ℚ × Int → ℚ × Int → Bool) → Nat → List (ℚ × Int) → List (ℚ × Int))
    (sort : (PQItem ℚ → PQItem ℚ → Bool) → List (PQItem ℚ) → List (PQItem ℚ))
    (hsel : NthElementPost (scalarEmbedding ℚ) nth) (hsort : SortPost sort) :
    ∃ out, runMain (scalarEmbedding ℚ) nth sort 1 2 examplePoints = Except.ok out ∧
      out.Perm [(1, 1), (1, 3)] ∧ out.map Prod.fst = [1, 1] := by
  obtain ⟨heap, hs, ⟨rest, hp, _⟩, hbf⟩ :=
    searchComplete_of_axisBound scalarEmbedding_axisBound hsel (1 : ℚ) (K := 2) (by decide)
      examplePoints
  have hent : entries (scalarEmbedding ℚ) 1 examplePoints =
      [(1, 1), (4, 2), (1, 3), (8, 4)] := by decide!
  have hbrute : bruteForce (scalarEmbedding ℚ) 1 (2 : Int).toNat examplePoints = [1, 1] := by
    decide!
  rw [hent] at hp
  rw [hbrute] at hbf
  have hdist : ∀ y ∈ heap, y.1 = 1 := by
    intro y hy
    have h1 : y.1 ∈ heap.map Prod.fst := List.mem_map_of_mem _ hy
    have h2 := hbf.subset h1
    simpa using h2
  have hsub : heap ⊆ [(1, 1), (1, 3)] := by
    intro y hy
    have h1 := hdist y hy
    have h2 : y ∈ [((1 : ℚ), (1 : Int)), (4, 2), (1, 3), (8, 4)] :=
      hp.symm.subset (List.mem_append_left _ hy)
    simp only [List.mem_cons, List.mem_singleton, List.not_mem_nil, or_false] at h2 ⊢
    rcases h2 with h | h | h | h
    · exact Or.inl h
    · rw [h] at h1; norm_num at h1
    · exact Or.inr h
    · rw [h] at h1; norm_num at h1
  have hnd : heap.Nodup := by
    have h1 : (heap ++ rest).Nodup := hp.nodup_iff.mp (by decide!)
    exact h1.of_append_left
  have hlen : heap.length = 2 := by
    have := hbf.length_eq
    simpa using this
  have hheap : heap.Perm [(1, 1), (1, 3)] :=
    (List.subperm_of_subset hnd hsub).perm_of_length_le (by simp [hlen])
  have hout : (sort cmpDist (drain heap)).Perm [(1, 1), (1, 3)] :=
    ((hsort (drain heap)).1.trans (drain_perm heap)).trans hheap
  refine ⟨sort cmpDist (drain heap), ?_, hout, ?_⟩
  · simp only [runMain, searchSorted, hs]
  · have h1 : ((sort cmpDist (drain heap)).map Prod.fst).Perm (List.replicate 2 (1 : ℚ)) :=
      hout.map Prod.fst
    exact List.perm_replicate.mp h1

/-- Witness of the amended C4, with the executable library instances. -/
theorem example_scenario_entries_witness :
    NthElementPost (scalarEmbedding ℚ) nthBySort ∧ SortPost (R := ℚ) insertionSortBy ∧
    ∃ out, runMain (scalarEmbedding ℚ) nthBySort insertionSortBy 1 2 examplePoints =
        Except.ok out ∧
      out.Perm [(1, 1), (1, 3)] ∧ out.map Prod.fst = [1, 1] :=
  ⟨nthBySort_post _, insertionSortBy_sortPost,
    example_scenario_entries nthBySort insertionSortBy (nthBySort_post _)
      insertionSortBy_sortPost⟩

/-- C5. Empty input: `buildKD` on an empty point list returns the null tree; `knnSearch` on
the null tree with an empty heap returns the empty heap for every query, depth and `K`; so
`runMain` returns the empty sequence, without a fault. -/
theorem empty_input {R T : Type} [LinearOrderedField R] (E : Embedding_T R T)
    (nth : (T × Int → T × Int → Bool) → Nat → List (T × Int) → List (T × Int))
    (sort : (PQItem R → PQItem R → Bool) → List (PQItem R) → List (PQItem R))
    (q : T) (K : Int) (hsort : SortPost sort) :
    buildKD E nth [] 0 = Node.null ∧
    (∀ depth : Nat, knnSearch E q Node.null depth K [] = Except.ok []) ∧
    runMain E nth sort q K [] = Except.ok [] := by
  refine ⟨rfl, fun _ => rfl, ?_⟩
  have h : sort cmpDist (drain ([] : MaxHeap R)) = [] :=
    List.perm_nil.mp ((hsort (drain [])).1.trans (drain_perm []))
  show Except.ok (sort cmpDist (drain ([] : MaxHeap R))) = Except.ok []
  rw [h]

/-- Witness of C5, with `K = 0`. -/
theorem empty_input_witness :
    SortPost (R := ℚ) insertionSortBy ∧
    (buildKD (scalarEmbedding ℚ) nthBySort [] 0 = Node.null ∧
      (∀ depth : Nat, knnSearch (scalarEmbedding ℚ) 1 Node.null depth 0 [] = Except.ok []) ∧
      runMain (scalarEmbedding ℚ) nthBySort insertionSortBy 1 0 [] = Except.ok []) :=
  ⟨insertionSortBy_sortPost,
    empty_input (scalarEmbedding ℚ) nthBySort insertionSortBy 1 0 insertionSortBy_sortPost⟩

/-- C6. Balance: for every list of `N ≥ 1` points, whatever the coordinates, the height `h`
of `buildKD(points)` satisfies `h ≤ ⌈log₂ (N + 1)⌉` and `2 ^ (h - 1) ≤ N`. -/
theorem buildKD_balanced {R T : Type} [LinearOrderedField R] (E : Embedding_T R T)
    (nth : (T × Int → T × Int → Bool) → Nat → List (T × Int) → List (T × Int))
    (points : List (T × Int)) (depth : Nat)
    (hsel : NthElementPost E nth) (hN : 1 ≤ points.length) :
    (buildKD E nth points depth).height ≤ Nat.clog 2 (points.length + 1) ∧
    2 ^ ((buildKD E nth points depth).height - 1) ≤ points.length := by
  have h := buildKD_height_le_clog hsel points depth
  refine ⟨h, ?_⟩
  have h1 : 2 ^ (Nat.clog 2 (points.length + 1)).pred < points.length + 1 :=
    Nat.pow_pred_clog_lt_self (by decide) (by omega)
  have h2 : 2 ^ ((buildKD E nth points depth).height - 1) ≤
      2 ^ (Nat.clog 2 (points.length + 1)).pred :=
    Nat.pow_le_pow_right (by decide) (by rw [Nat.pred_eq_sub_one]; omega)
  omega

/-- Witness of C6: three points with one and the same coordinate. -/
theorem buildKD_balanced_witness :
    NthElementPost (scalarEmbedding ℚ) nthBySort ∧
    1 ≤ ([(7, 1), (7, 2), (7, 3)] : List (ℚ × Int)).length ∧
    (buildKD (scalarEmbedding ℚ) nthBySort [(7, 1), (7, 2), (7, 3)] 0).height ≤
      Nat.clog 2 (([(7, 1), (7, 2), (7, 3)] : List (ℚ × Int)).length + 1) ∧
    2 ^ ((buildKD (scalarEmbedding ℚ) nthBySort [(7, 1), (7, 2), (7, 3)] 0).height - 1) ≤
      ([(7, 1), (7, 2), (7, 3)] : List (ℚ × Int)).length :=
  ⟨nthBySort_post _, by decide,
    buildKD_balanced (scalarEmbedding ℚ) nthBySort [(7, 1), (7, 2), (7, 3)] 0
      (nthBySort_post _) (by decide)⟩

/-- C7, the code at the failing input. With `K = 0` (and likewise `K = -1`) and one point,
`runMain` performs no argument check: the search evaluates `heap.top()` on the empty heap,
which is the fault `Fault.emptyTop`, not a rejection of `K`; on the empty tree it silently
returns the empty heap. -/
theorem runMain_nonpositive_K_faults :
    runMain (scalarEmbedding ℚ) nthBySort insertionSortBy 1 0 [(0, 1)] =
      Except.error Fault.emptyTop ∧
    runMain (scalarEmbedding ℚ) nthBySort insertionSortBy 1 (-1) [(0, 1)] =
      Except.error Fault.emptyTop ∧
    knnSearch (scalarEmbedding ℚ) 1 Node.null 0 0 [] = Except.ok [] :=
  ⟨by decide!, by decide!, rfl⟩

/-- C8. K-d ordering: for every point list and any selection step satisfying the
`std::nth_element` postcondition, the tree `buildKD(points, 0)` is k-d ordered; spelled
out, at every node at depth `d`, on the axis `d % Dim`, every point of the left subtree has
a coordinate at most the node's and every point of the right subtree a coordinate at least
the node's. -/
theorem buildKD_kd_ordering {R T : Type} [LinearOrderedField R] (E : Embedding_T R T)
    (nth : (T × Int → T × Int → Bool) → Nat → List (T × Int) → List (T × Int))
    (points : List (T × Int)) (hsel : NthElementPost E nth) :
    KdOrdered E 0 (buildKD E nth points 0) ∧
    ∀ (d : Nat) (e : T) (i : Int) (l r : Node T),
      Node.node e i l r ∈ (buildKD E nth points 0).subtreesAt d →
      (∀ p ∈ l.items, E.getCoordinate p.1 (d % E.Dim) ≤ E.getCoordinate e (d % E.Dim)) ∧
      (∀ p ∈ r.items, E.getCoordinate e (d % E.Dim) ≤ E.getCoordinate p.1 (d % E.Dim)) := by
  have h := buildKD_kdOrdered hsel points 0
  refine ⟨h, ?_⟩
  intro d e i l r hs
  have h2 := KdOrdered.of_mem_subtreesAt _ 0 d _ h hs
  rw [Nat.zero_add] at h2
  exact ⟨h2.1, h2.2.1⟩

/-- Witness of C8, on the points of the example scenario. -/
theorem buildKD_kd_ordering_witness :
    NthElementPost (scalarEmbedding ℚ) nthBySort ∧
    (KdOrdered (scalarEmbedding ℚ) 0 (buildKD (scalarEmbedding ℚ) nthBySort examplePoints 0) ∧
    ∀ (d : Nat) (e : ℚ) (i : Int) (l r : Node ℚ),
      Node.node e i l r ∈
        (buildKD (scalarEmbedding ℚ) nthBySort examplePoints 0).subtreesAt d →
      (∀ p ∈ l.items, (scalarEmbedding ℚ).getCoordinate p.1 (d % (scalarEmbedding ℚ).Dim) ≤
        (scalarEmbedding ℚ).getCoordinate e (d % (scalarEmbedding ℚ).Dim)) ∧
      (∀ p ∈ r.items, (scalarEmbedding ℚ).getCoordinate e (d % (scalarEmbedding ℚ).Dim) ≤
        (scalarEmbedding ℚ).getCoordinate p.1 (d % (scalarEmbedding ℚ).Dim))) :=
  ⟨nthBySort_post _,
    buildKD_kd_ordering (scalarEmbedding ℚ) nthBySort examplePoints (nthBySort_post _)⟩

end Claims2

end KNN

namespace KNN

section ClaimLemmas3

variable {R T : Type} [LinearOrderedField R]
variable {E : Embedding_T R T}

/-- A k-d ordered tree of a policy of dimension at least 1 in which no two stored points
share a coordinate on an axis below the dimension has strictly smaller coordinates on the
left of every node. -/
theorem KdOrdered.strictLeft (hD : 1 ≤ E.Dim) : ∀ (t : Node T) (depth : Nat),
    KdOrdered E depth t →
    (∀ axis : Nat, axis < E.Dim → (t.items.map fun p => E.getCoordinate p.1 axis).Nodup) →
    StrictLeftOrdered E depth t := by
  intro t
  induction t with
  | null => intro _ _ _; exact trivial
  | node e i l r ihl ihr =>
    intro depth hord hnd
    obtain ⟨hleft, hright, hol, hor⟩ := hord
    have hsplit : ∀ axis : Nat, axis < E.Dim →
        ((l.items.map fun p => E.getCoordinate p.1 axis) ++
          E.getCoordinate e axis :: (r.items.map fun p => E.getCoordinate p.1 axis)).Nodup := by
      intro axis hax
      have := hnd axis hax
      simpa [Node.items] using this
    refine ⟨?_, hright, ihl (depth + 1) hol ?_, ihr (depth + 1) hor ?_⟩
    · intro p hp
      refine lt_of_le_of_ne (hleft p hp) ?_
      intro heq
      have hd := (List.nodup_append.mp (hsplit (depth % E.Dim) (Nat.mod_lt _ hD))).2.2
      exact hd (List.mem_map.mpr ⟨p, hp, rfl⟩) (by rw [heq]; exact List.mem_cons_self _ _)
    · intro axis hax
      exact (List.nodup_append.mp (hsplit axis hax)).1
    · intro axis hax
      exact (List.nodup_cons.mp (List.nodup_append.mp (hsplit axis hax)).2.1).2

end ClaimLemmas3

section Claims3

/-- C9, counterexample. On the two points `[(1, id=1), (1, id=2)]`, which share their
coordinate, no admissible `std::nth_element` gives a tree with a strict left side: the node
holds one point and its left child the other, with the same coordinate. Sorting the whole
vector as the selection step gives `node (1, id=2)` with left child `node (1, id=1)`. -/
theorem strict_left_counterexample :
    (∀ nth : (ℚ × Int → ℚ × Int → Bool) → Nat → List (ℚ × Int) → List (ℚ × Int),
      NthElementPost (scalarEmbedding ℚ) nth →
      ¬ StrictLeftOrdered (scalarEmbedding ℚ) 0
        (buildKD (scalarEmbedding ℚ) nth [(1, 1), (1, 2)] 0)) ∧
    NthElementPost (scalarEmbedding ℚ) nthBySort ∧
    buildKD (scalarEmbedding ℚ) nthBySort [(1, 1), (1, 2)] 0 =
      Node.node 1 2 (Node.node 1 1 Node.null Node.null) Node.null ∧
    ¬ StrictLeftOrdered (scalarEmbedding ℚ) 0
      (buildKD (scalarEmbedding ℚ) nthBySort [(1, 1), (1, 2)] 0) := by
  refine ⟨?_, nthBySort_post _, by decide!, by decide!⟩
  intro nth hsel hstrict
  obtain ⟨m, hm, hb⟩ := buildKD_cons hsel [((1 : ℚ), (1 : Int)), (1, 2)] 0 (by simp)
  have hperm := (hsel (0 % (scalarEmbedding ℚ).Dim) (([((1 : ℚ), (1 : Int)), (1, 2)]).length / 2)
    [((1 : ℚ), (1 : Int)), (1, 2)] (by decide)).1
  rw [hb] at hstrict
  have hcoord : ∀ p ∈ nth (cmpAxis (scalarEmbedding ℚ) (0 % (scalarEmbedding ℚ).Dim))
      (([((1 : ℚ), (1 : Int)), (1, 2)]).length / 2) [((1 : ℚ), (1 : Int)), (1, 2)],
      p.1 = 1 := by
    intro p hp
    have := hperm.subset hp
    simp only [List.mem_cons, List.mem_singleton, List.not_mem_nil, or_false] at this
    rcases this with h | h <;> rw [h]
  have hmmem := List.mem_iff_getElem?.mpr ⟨_, hm⟩
  have hlen := hperm.length_eq
  have htake : (List.take (([((1 : ℚ), (1 : Int)), (1, 2)]).length / 2)
      (nth (cmpAxis (scalarEmbedding ℚ) (0 % (scalarEmbedding ℚ).Dim))
        (([((1 : ℚ), (1 : Int)), (1, 2)]).length / 2) [((1 : ℚ), (1 : Int)), (1, 2)])) ≠ [] := by
    intro h0
    have := congrArg List.length h0
    rw [List.length_take, hlen] at this
    simp at this
  obtain ⟨p, hp⟩ := List.exists_mem_of_ne_nil _ htake
  have hpl := (buildKD_items_perm hsel _ (0 + 1)).symm.subset hp
  have hlt := hstrict.1 p hpl
  have hp1 := hcoord p (List.mem_of_mem_take hp)
  have hm1 := hcoord m hmmem
  simp only [scalarEmbedding] at hlt
  rw [hp1, hm1] at hlt
  exact lt_irrefl _ hlt

/-- C9, amended. In every tree produced by `buildKD`, at every node the left subtree holds
only points whose coordinate on the node's axis is at most the node's, and the right subtree
only points whose coordinate is at least the node's; for a policy of dimension `Dim ≥ 1`
the left side is strict when no two input points share a coordinate on an axis below
`Dim`. -/
theorem buildKD_left_le_strict_if_distinct {R T : Type} [LinearOrderedField R]
    (E : Embedding_T R T)
    (nth : (T × Int → T × Int → Bool) → Nat → List (T × Int) → List (T × Int))
    (points : List (T × Int)) (hsel : NthElementPost E nth) :
    KdOrdered E 0 (buildKD E nth points 0) ∧
    (1 ≤ E.Dim →
      (∀ axis : Nat, axis < E.Dim →
        (points.map fun p => E.getCoordinate p.1 axis).Nodup) →
      StrictLeftOrdered E 0 (buildKD E nth points 0)) := by
  have h := buildKD_kdOrdered hsel points 0
  refine ⟨h, fun hD hnd => KdOrdered.strictLeft hD _ 0 h ?_⟩
  intro axis hax
  exact (((buildKD_items_perm hsel points 0).map _).nodup_iff).mpr (hnd axis hax)

/-- Witness of the amended C9: in scalar mode the example points, and in array mode of
dimension 2 over the reals the points `(0, 5)`, `(3, 1)`, `(1, 4)`, have distinct
coordinates on every axis and give a tree with a strict left side. -/
theorem buildKD_left_le_strict_if_distinct_witness :
    (NthElementPost (scalarEmbedding ℚ) nthBySort ∧
      1 ≤ (scalarEmbedding ℚ).Dim ∧
      (∀ axis : Nat, axis < (scalarEmbedding ℚ).Dim →
        (examplePoints.map fun p => (scalarEmbedding ℚ).getCoordinate p.1 axis).Nodup) ∧
      KdOrdered (scalarEmbedding ℚ) 0
        (buildKD (scalarEmbedding ℚ) nthBySort examplePoints 0) ∧
      StrictLeftOrdered (scalarEmbedding ℚ) 0
        (buildKD (scalarEmbedding ℚ) nthBySort examplePoints 0)) ∧
    (NthElementPost (arrayEmbedding Real.sqrt 2) nthBySort ∧
      1 ≤ (arrayEmbedding Real.sqrt 2).Dim ∧
      (∀ axis : Nat, axis < (arrayEmbedding Real.sqrt 2).Dim →
        (([(![0, 5], 1), (![3, 1], 2), (![1, 4], 3)] : List ((Fin 2 → ℝ) × Int)).map
          fun p => (arrayEmbedding Real.sqrt 2).getCoordinate p.1 axis).Nodup) ∧
      StrictLeftOrdered (arrayEmbedding Real.sqrt 2) 0
        (buildKD (arrayEmbedding Real.sqrt 2) nthBySort
          [(![0, 5], 1), (![3, 1], 2), (![1, 4], 3)] 0)) := by
  have hs : ∀ axis : Nat, axis < (scalarEmbedding ℚ).Dim →
      (examplePoints.map fun p => (scalarEmbedding ℚ).getCoordinate p.1 axis).Nodup :=
    fun _ _ => show (examplePoints.map fun p => p.1).Nodup by decide!
  have ha : ∀ axis : Nat, axis < (arrayEmbedding Real.sqrt 2).Dim →
      (([(![0, 5], 1), (![3, 1], 2), (![1, 4], 3)] : List ((Fin 2 → ℝ) × Int)).map
        fun p => (arrayEmbedding Real.sqrt 2).getCoordinate p.1 axis).Nodup := by
    intro axis hax
    have hax2 : axis < 2 := hax
    interval_cases axis <;> simp [arrayEmbedding]
  exact ⟨⟨nthBySort_post _, le_refl _, hs,
      (buildKD_left_le_strict_if_distinct (scalarEmbedding ℚ) nthBySort examplePoints
        (nthBySort_post _)).1,
      (buildKD_left_le_strict_if_distinct (scalarEmbedding ℚ) nthBySort examplePoints
        (nthBySort_post _)).2 (le_refl _) hs⟩,
    ⟨nthBySort_post _, by decide, ha,
      (buildKD_left_le_strict_if_distinct (arrayEmbedding Real.sqrt 2) nthBySort
        [(![0, 5], 1), (![3, 1], 2), (![1, 4], 3)] (nthBySort_post _)).2 (by decide) ha⟩⟩

/-- C10. Candidate-heap invariant: for every `K ≥ 1`, a search from an empty heap returns a
heap that is the result of offering the visited entries in visit order, and after each of
the visits (after the first `v` of them, for every `v`) the heap holds at most `K` entries,
its distances are, as a multiset, the `min(K, v)` smallest of the `v` distances seen, and
when it is full its top carries the `K`-th smallest distance seen. -/
theorem candidate_heap_invariant {R T : Type} [LinearOrderedField R] (E : Embedding_T R T)
    (q : T) (t : Node T) (depth : Nat) (K : Int) (hK : 1 ≤ K) :
    ∃ (heap : MaxHeap R) (log : List (PQItem R)),
      knnSearchLog E q t depth K [] = Except.ok (heap, log) ∧
      knnSearch E q t depth K [] = Except.ok heap ∧
      considerAll K [] log = Except.ok heap ∧
      ∀ v : Nat, v ≤ log.length →
        ∃ hv : MaxHeap R, considerAll K [] (log.take v) = Except.ok hv ∧
          (hv.length : Int) ≤ K ∧
          (hv.map Prod.fst).Perm
            ((((log.take v).map Prod.fst).insertionSort (· ≤ ·)).take (min K.toNat v)) ∧
          ((hv.length : Int) = K → ∃ top, hv.top = some top ∧
            (((log.take v).map Prod.fst).insertionSort (· ≤ ·))[K.toNat - 1]? =
              some top.1) := by
  obtain ⟨heap, log, h1, h2, h3, _⟩ :=
    knnSearchLog_spec (E := E) hK q t depth [] (by simp; omega)
  refine ⟨heap, log, h1, h2, h3, ?_⟩
  intro v hv
  obtain ⟨hvheap, hc, hopt⟩ := considerAll_optimal hK (log.take v) [] [] (Optimal.nil K hK)
  rw [List.nil_append] at hopt
  refine ⟨hvheap, hc, ?_, ?_, fun hfull => hopt.top_kth hK hfull⟩
  · have := hopt.length_eq
    omega
  · have hp := hopt.perm_take hK
    have hl : (((log.take v).map Prod.fst).insertionSort (· ≤ ·)).length = v := by
      rw [(List.perm_insertionSort _ _).length_eq, List.length_map, List.length_take]
      omega
    generalize ((log.take v).map Prod.fst).insertionSort (· ≤ ·) = sorted at hp hl
    rcases Nat.le_total K.toNat v with hkv | hkv
    · rw [Nat.min_eq_left hkv]
      exact hp
    · rw [Nat.min_eq_right hkv, List.take_of_length_le (le_of_eq hl)]
      rw [List.take_of_length_le (by omega)] at hp
      exact hp

/-- Witness of C10: the tree of the example scenario searched with `K = 2`. -/
theorem candidate_heap_invariant_witness :
    (1 : Int) ≤ 2 ∧
    ∃ (heap : MaxHeap ℚ) (log : List (PQItem ℚ)),
      knnSearchLog (scalarEmbedding ℚ) 1
        (buildKD (scalarEmbedding ℚ) nthBySort examplePoints 0) 0 2 [] =
          Except.ok (heap, log) ∧
      knnSearch (scalarEmbedding ℚ) 1
        (buildKD (scalarEmbedding ℚ) nthBySort examplePoints 0) 0 2 [] = Except.ok heap ∧
      considerAll 2 [] log = Except.ok heap ∧
      ∀ v : Nat, v ≤ log.length →
        ∃ hv : MaxHeap ℚ, considerAll 2 [] (log.take v) = Except.ok hv ∧
          (hv.length : Int) ≤ 2 ∧
          (hv.map Prod.fst).Perm
            ((((log.take v).map Prod.fst).insertionSort (· ≤ ·)).take
              (min (2 : Int).toNat v)) ∧
          ((hv.length : Int) = 2 → ∃ top, hv.top = some top ∧
            (((log.take v).map Prod.fst).insertionSort (· ≤ ·))[(2 : Int).toNat - 1]? =
              some top.1) :=
  ⟨by decide,
    candidate_heap_invariant (scalarEmbedding ℚ) 1
      (buildKD (scalarEmbedding ℚ) nthBySort examplePoints 0) 0 2 (by decide)⟩

end Claims3

end KNN

namespace KNN

section UnfoldTheory

variable {R T : Type} [LinearOrderedField R]
variable {E : Embedding_T R T}

/-- One level of `knnSearch` at a node, in terms of the near and the far child. -/
theorem knnSearch_node (q : T) (e : T) (i : Int) (l r : Node T) (depth : Nat) (K : Int)
    (heap : MaxHeap R) :
    knnSearch E q (Node.node e i l r) depth K heap =
      match consider K heap (E.distance e q) i with
      | Except.error f => Except.error f
      | Except.ok heap1 =>
        match knnSearch E q (nearChild E q depth e l r) (depth + 1) K heap1 with
        | Except.error f => Except.error f
        | Except.ok heap2 =>
          if exploresFar E q depth K e heap2 then
            knnSearch E q (farChild E q depth e l r) (depth + 1) K heap2
          else Except.ok heap2 := by
  simp only [knnSearch]
  cases consider K heap (E.distance e q) i with
  | error f => rfl
  | ok heap1 =>
    by_cases hgo : E.getCoordinate q (depth % E.Dim) < E.getCoordinate e (depth % E.Dim)
    · simp only [hgo, decide_True, if_true, nearChild, farChild, exploresFar]
    · simp only [hgo, decide_False, Bool.false_eq_true, if_false, nearChild, farChild,
        exploresFar]

/-- One level of the instrumented search at a node. -/
theorem knnSearchLog_node (q : T) (e : T) (i : Int) (l r : Node T) (depth : Nat) (K : Int)
    (heap : MaxHeap R) :
    knnSearchLog E q (Node.node e i l r) depth K heap =
      match consider K heap (E.distance e q) i with
      | Except.error f => Except.error f
      | Except.ok heap1 =>
        match knnSearchLog E q (nearChild E q depth e l r) (depth + 1) K heap1 with
        | Except.error f => Except.error f
        | Except.ok (heap2, nearLog) =>
          if exploresFar E q depth K e heap2 then
            match knnSearchLog E q (farChild E q depth e l r) (depth + 1) K heap2 with
            | Except.error f => Except.error f
            | Except.ok (heap3, farLog) =>
              Except.ok (heap3, (E.distance e q, i) :: nearLog ++ farLog)
          else Except.ok (heap2, (E.distance e q, i) :: nearLog) := by
  simp only [knnSearchLog]
  cases consider K heap (E.distance e q) i with
  | error f => rfl
  | ok heap1 =>
    by_cases hgo : E.getCoordinate q (depth % E.Dim) < E.getCoordinate e (depth % E.Dim)
    · simp only [hgo, decide_True, if_true, nearChild, farChild, exploresFar]
    · simp only [hgo, decide_False, Bool.false_eq_true, if_false, nearChild, farChild,
        exploresFar]

/-- The visit order at a node: the node, the near subtree, the far subtree. -/
theorem searchOrder_node (q : T) (e : T) (i : Int) (l r : Node T) (depth : Nat) :
    Node.searchOrder E q (Node.node e i l r) depth =
      (e, i) :: (Node.searchOrder E q (nearChild E q depth e l r) (depth + 1) ++
        Node.searchOrder E q (farChild E q depth e l r) (depth + 1)) := by
  simp only [Node.searchOrder]
  by_cases hgo : E.getCoordinate q (depth % E.Dim) < E.getCoordinate e (depth % E.Dim)
  · simp only [hgo, if_true, nearChild, farChild]
  · simp only [hgo, if_false, nearChild, farChild]

/-- The near and the far child are the two children. -/
theorem near_far_cases (q : T) (e : T) (l r : Node T) (depth : Nat) :
    (nearChild E q depth e l r = l ∧ farChild E q depth e l r = r) ∨
    (nearChild E q depth e l r = r ∧ farChild E q depth e l r = l) := by
  by_cases hgo : E.getCoordinate q (depth % E.Dim) < E.getCoordinate e (depth % E.Dim)
  · left; simp only [hgo, if_true, nearChild, farChild, and_self]
  · right; simp only [hgo, if_false, nearChild, farChild, and_self]

/-- The visit order lists every stored pair once. -/
theorem searchOrder_perm (q : T) : ∀ (t : Node T) (depth : Nat),
    (Node.searchOrder E q t depth).Perm t.items := by
  intro t
  induction t with
  | null => intro _; exact List.Perm.refl _
  | node e i l r ihl ihr =>
    intro depth
    rw [searchOrder_node]
    simp only [Node.items]
    rcases near_far_cases (E := E) q e l r depth with ⟨hn, hf⟩ | ⟨hn, hf⟩
    · rw [hn, hf]
      exact (List.Perm.cons _ ((ihl _).append (ihr _))).trans List.perm_middle.symm
    · rw [hn, hf]
      refine (List.Perm.cons _ (((ihr _).append (ihl _)).trans List.perm_append_comm)).trans
        List.perm_middle.symm

end UnfoldTheory

section SoundTheory

variable {R T : Type} [LinearOrderedField R]
variable {E : Embedding_T R T}

/-- The step "consider this node" only keeps entries of the heap and the offered entry. -/
theorem consider_subperm {K : Int} {heap heap2 : MaxHeap R} {d : R} {i : Int}
    (h : consider K heap d i = Except.ok heap2) : heap2.Subperm ((d, i) :: heap) := by
  unfold consider at h
  by_cases hlt : ((MaxHeap.size heap : Nat) : Int) < K
  · rw [if_pos hlt] at h
    cases h
    exact List.Subperm.refl _
  · rw [if_neg hlt] at h
    cases ht : heap.top with
    | none => rw [ht] at h; cases h
    | some t =>
      rw [ht] at h
      by_cases hd : d < t.1
      · simp only [hd, if_true] at h
        cases h
        have hs : (heap.pop).Sublist heap := by
          simp only [MaxHeap.pop, ht, MaxHeap.removeOne]
          exact @List.erase_sublist (PQItem R) instBEqOfDecidableEq t heap
        exact (hs.cons₂ _).subperm
      · simp only [hd, if_false] at h
        cases h
        exact (List.sublist_cons_self _ _).subperm

theorem considerAll_subperm {K : Int} (xs : List (PQItem R)) :
    ∀ (heap heap2 : MaxHeap R), considerAll K heap xs = Except.ok heap2 →
      heap2.Subperm (heap ++ xs) := by
  induction xs with
  | nil =>
    intro heap heap2 h
    cases h
    simp only [List.append_nil]
    exact List.Subperm.refl _
  | cons x xs ih =>
    intro heap heap2 h
    simp only [considerAll] at h
    cases hc : consider K heap x.1 x.2 with
    | error f => rw [hc] at h; cases h
    | ok h1 =>
      rw [hc] at h
      have s1 := ih h1 heap2 h
      have s2 : (h1 ++ xs).Subperm ((x :: heap) ++ xs) :=
        (List.subperm_append_right xs).mpr (consider_subperm hc)
      refine (s1.trans s2).trans (List.Perm.subperm ?_)
      simp only [List.cons_append]
      exact List.perm_middle.symm

/-- Whatever `K` and the initial heap are, when the instrumented search returns, `knnSearch`
returns the same heap, that heap is the result of offering the logged entries in order, and
the log is the visit order with some entries left out. -/
theorem knnSearchLog_sublist (q : T) (K : Int) :
    ∀ (t : Node T) (depth : Nat) (heap heap2 : MaxHeap R) (log : List (PQItem R)),
      knnSearchLog E q t depth K heap = Except.ok (heap2, log) →
      knnSearch E q t depth K heap = Except.ok heap2 ∧
      considerAll K heap log = Except.ok heap2 ∧
      log.Sublist (entries E q (Node.searchOrder E q t depth)) := by
  intro t
  induction t with
  | null =>
    intro depth heap heap2 log h
    cases h
    exact ⟨rfl, rfl, List.Sublist.refl _⟩
  | node e i l r ihl ihr =>
    intro depth heap heap2 log h
    have ihn : ∀ (depth : Nat) (heap heap2 : MaxHeap R) (log : List (PQItem R)),
        knnSearchLog E q (nearChild E q depth e l r) (depth + 1) K heap =
          Except.ok (heap2, log) →
        knnSearch E q (nearChild E q depth e l r) (depth + 1) K heap = Except.ok heap2 ∧
        considerAll K heap log = Except.ok heap2 ∧
        log.Sublist (entries E q
          (Node.searchOrder E q (nearChild E q depth e l r) (depth + 1))) := by
      intro d
      rcases near_far_cases (E := E) q e l r d with ⟨hn, _⟩ | ⟨hn, _⟩ <;> rw [hn]
      · exact ihl (d + 1)
      · exact ihr (d + 1)
    have ihf : ∀ (depth : Nat) (heap heap2 : MaxHeap R) (log : List (PQItem R)),
        knnSearchLog E q (farChild E q depth e l r) (depth + 1) K heap =
          Except.ok (heap2, log) →
        knnSearch E q (farChild E q depth e l r) (depth + 1) K heap = Except.ok heap2 ∧
        considerAll K heap log = Except.ok heap2 ∧
        log.Sublist (entries E q
          (Node.searchOrder E q (farChild E q depth e l r) (depth + 1))) := by
      intro d
      rcases near_far_cases (E := E) q e l r d with ⟨_, hf⟩ | ⟨_, hf⟩ <;> rw [hf]
      · exact ihr (d + 1)
      · exact ihl (d + 1)
    rw [knnSearchLog_node] at h
    rw [knnSearch_node, searchOrder_node]
    cases hc : consider K heap (E.distance e q) i with
    | error f => rw [hc] at h; cases h
    | ok heap1 =>
      rw [hc] at h
      simp only at h ⊢
      cases hn : knnSearchLog E q (nearChild E q depth e l r) (depth + 1) K heap1 with
      | error f => rw [hn] at h; cases h
      | ok res =>
        obtain ⟨h2, nearLog⟩ := res
        rw [hn] at h
        simp only at h
        obtain ⟨hs2, hca2, hsub2⟩ := ihn depth heap1 h2 nearLog hn
        rw [hs2]
        simp only
        have hentry : entries E q
            ((e, i) :: (Node.searchOrder E q (nearChild E q depth e l r) (depth + 1) ++
              Node.searchOrder E q (farChild E q depth e l r) (depth + 1))) =
            (E.distance e q, i) ::
              (entries E q (Node.searchOrder E q (nearChild E q depth e l r) (depth + 1)) ++
              entries E q (Node.searchOrder E q (farChild E q depth e l r) (depth + 1))) := by
          simp [entries, entry]
        rw [hentry]
        by_cases hx : exploresFar E q depth K e h2
        · rw [if_pos hx] at h ⊢
          cases hf : knnSearchLog E q (farChild E q depth e l r) (depth + 1) K h2 with
          | error f => rw [hf] at h; cases h
          | ok res3 =>
            obtain ⟨h3, farLog⟩ := res3
            rw [hf] at h
            simp only at h
            cases h
            obtain ⟨hs3, hca3, hsub3⟩ := ihf depth h2 _ _ hf
            refine ⟨hs3, ?_, ?_⟩
            · rw [considerAll_append]
              simp only [considerAll, hc, hca2]
              exact hca3
            · exact (hsub2.append hsub3).cons₂ _
        · rw [if_neg hx] at h ⊢
          cases h
          refine ⟨rfl, ?_, ?_⟩
          · simp only [considerAll, hc]
            exact hca2
          · exact (hsub2.trans (List.sublist_append_left _ _)).cons₂ _

/-- Whenever `knnSearch` returns a heap, the instrumented search returns the same heap with
a log. -/
theorem knnSearchLog_exists (q : T) (K : Int) :
    ∀ (t : Node T) (depth : Nat) (heap heap2 : MaxHeap R),
      knnSearch E q t depth K heap = Except.ok heap2 →
      ∃ log, knnSearchLog E q t depth K heap = Except.ok (heap2, log) := by
  intro t
  induction t with
  | null =>
    intro depth heap heap2 h
    cases h
    exact ⟨[], rfl⟩
  | node e i l r ihl ihr =>
    intro depth heap heap2 h
    have ihn : ∀ (heap heap2 : MaxHeap R),
        knnSearch E q (nearChild E q depth e l r) (depth + 1) K heap = Except.ok heap2 →
        ∃ log, knnSearchLog E q (nearChild E q depth e l r) (depth + 1) K heap =
          Except.ok (heap2, log) := by
      rcases near_far_cases (E := E) q e l r depth with ⟨hn, _⟩ | ⟨hn, _⟩ <;> rw [hn]
      · exact ihl (depth + 1)
      · exact ihr (depth + 1)
    have ihf : ∀ (heap heap2 : MaxHeap R),
        knnSearch E q (farChild E q depth e l r) (depth + 1) K heap = Except.ok heap2 →
        ∃ log, knnSearchLog E q (farChild E q depth e l r) (depth + 1) K heap =
          Except.ok (heap2, log) := by
      rcases near_far_cases (E := E) q e l r depth with ⟨_, hf⟩ | ⟨_, hf⟩ <;> rw [hf]
      · exact ihr (depth + 1)
      · exact ihl (depth + 1)
    rw [knnSearch_node] at h
    rw [knnSearchLog_node]
    cases hc : consider K heap (E.distance e q) i with
    | error f => rw [hc] at h; cases h
    | ok heap1 =>
      rw [hc] at h
      simp only at h ⊢
      cases hn : knnSearch E q (nearChild E q depth e l r) (depth + 1) K heap1 with
      | error f => rw [hn] at h; cases h
      | ok h2 =>
        rw [hn] at h
        simp only at h
        obtain ⟨nearLog, hnl⟩ := ihn heap1 h2 hn
        rw [hnl]
        simp only
        by_cases hx : exploresFar E q depth K e h2
        · rw [if_pos hx] at h ⊢
          obtain ⟨farLog, hfl⟩ := ihf h2 heap2 h
          rw [hfl]
          exact ⟨_, rfl⟩
        · rw [if_neg hx] at h ⊢
          cases h
          exact ⟨_, rfl⟩

/-- The heap that `knnSearch` returns from an empty heap is a sub-multiset of the entries
of the tree's points. -/
theorem knnSearch_subperm (q : T) {K : Int} (t : Node T) (depth : Nat) (heap : MaxHeap R)
    (h : knnSearch E q t depth K [] = Except.ok heap) :
    heap.Subperm (entries E q t.items) := by
  obtain ⟨log, hl⟩ := knnSearchLog_exists q K t depth [] heap h
  obtain ⟨_, hca, hsub⟩ := knnSearchLog_sublist q K t depth [] heap log hl
  have h1 := considerAll_subperm log [] heap hca
  rw [List.nil_append] at h1
  refine (h1.trans hsub.subperm).trans (List.Perm.subperm ?_)
  exact (searchOrder_perm q t depth).map _

end SoundTheory

end KNN

namespace KNN

section ClaimLemmas4

variable {R T : Type} [LinearOrderedField R]
variable {E : Embedding_T R T}
variable {nth : (T × Int → T × Int → Bool) → Nat → List (T × Int) → List (T × Int)}

/-- The memory version of `knnSearch` leaves the tree and the query as they are and changes
the heap as `knnSearch` does. -/
theorem knnSearchMem_eq : ∀ (node : Node T) (depth : Nat) (K : Int) (mem : Memory R T),
    knnSearchMem E node depth K mem =
      match knnSearch E mem.queryEmbedding node depth K mem.heap with
      | Except.error f => Except.error f
      | Except.ok heap => Except.ok ⟨mem.root, mem.queryEmbedding, heap⟩ := by
  intro node
  induction node with
  | null => intro depth K mem; rfl
  | node e i l r ihl ihr =>
    intro depth K mem
    simp only [knnSearchMem, knnSearch]
    cases consider K mem.heap (E.distance e mem.queryEmbedding) i with
    | error f => rfl
    | ok heap1 =>
      simp only
      by_cases hgo : E.getCoordinate mem.queryEmbedding (depth % E.Dim) <
          E.getCoordinate e (depth % E.Dim)
      · simp only [hgo, decide_True, if_true]
        rw [ihl]
        cases knnSearch E mem.queryEmbedding l (depth + 1) K heap1 with
        | error f => rfl
        | ok heap2 =>
          simp only
          split_ifs
          · rw [ihr]
          · rfl
      · simp only [hgo, decide_False, Bool.false_eq_true, if_false]
        rw [ihr]
        cases knnSearch E mem.queryEmbedding r (depth + 1) K heap1 with
        | error f => rfl
        | ok heap2 =>
          simp only
          split_ifs
          · rw [ihl]
          · rfl

omit [LinearOrderedField R] in
theorem Node.size_eq_zero_iff (t : Node T) : t.size = 0 ↔ t = Node.null := by
  cases t with
  | null => simp [Node.size]
  | node e i l r => simp [Node.size]

omit [LinearOrderedField R] in
/-- A halved tree is halved at each of its subtrees. -/
theorem Halved.at_subtree : ∀ (t : Node T) (d : Nat) (s : Node T),
    Halved t → s ∈ t.subtreesAt d → Halved s := by
  intro t
  induction t with
  | null =>
    intro d s h hs
    cases d with
    | zero =>
      simp only [Node.subtreesAt, List.mem_singleton] at hs
      subst hs
      exact h
    | succ d => simp [Node.subtreesAt] at hs
  | node e i l r ihl ihr =>
    intro d s h hs
    cases d with
    | zero =>
      simp only [Node.subtreesAt, List.mem_singleton] at hs
      subst hs
      exact h
    | succ d =>
      simp only [Node.subtreesAt, List.mem_append] at hs
      rcases hs with hs | hs
      · exact ihl d s h.2.1 hs
      · exact ihr d s h.2.2 hs

/-- The tree built by `buildKD` is halved at every node. -/
theorem buildKD_halved (hsel : NthElementPost E nth) (items : List (T × Int)) (depth : Nat) :
    Halved (buildKD E nth items depth) := by
  refine buildKD_induct hsel (fun _ _ t => Halved t) ?_ ?_ items depth
  · intro _; exact trivial
  · intro items out depth m hne hout _ hl hr
    have hpos : 0 < items.length := List.length_pos.mpr hne
    have hmid : items.length / 2 < items.length := Nat.div_lt_self hpos (by decide)
    have hlen := (hsel (depth % E.Dim) _ items hmid).1.length_eq
    rw [← hout] at hlen
    refine ⟨?_, hl, hr⟩
    rw [buildKD_size hsel, buildKD_size hsel, List.length_take, List.length_drop]
    omega

omit [LinearOrderedField R] in
theorem subperm_map_snd_nodup {out all : List (PQItem R)} (h : out.Subperm all)
    (hnd : (all.map Prod.snd).Nodup) : (out.map Prod.snd).Nodup := by
  obtain ⟨l, hp, hs⟩ := h
  exact ((hp.map Prod.snd).nodup_iff).mp ((hs.map Prod.snd).nodup hnd)

/-- The step "consider this node" faults only on an empty heap with `K ≤ 0`. -/
theorem consider_error_iff (K : Int) (heap : MaxHeap R) (d : R) (i : Int) (f : Fault) :
    consider K heap d i = Except.error f ↔ heap = [] ∧ K ≤ 0 := by
  unfold consider
  constructor
  · intro h
    by_cases hlt : ((MaxHeap.size heap : Nat) : Int) < K
    · rw [if_pos hlt] at h
      cases h
    · rw [if_neg hlt] at h
      cases ht : heap.top with
      | none =>
        have hnil := (MaxHeap.top_eq_none_iff heap).mp ht
        subst hnil
        simp only [MaxHeap.size, List.length_nil, Nat.cast_zero] at hlt
        exact ⟨rfl, by omega⟩
      | some t =>
        rw [ht] at h
        by_cases hd : d < t.1
        · simp only [hd, if_true] at h
          cases h
        · simp only [hd, if_false] at h
          cases h
  · rintro ⟨rfl, hK⟩
    rw [if_neg (by simp only [MaxHeap.size, List.length_nil, Nat.cast_zero]; omega)]
    cases f
    rfl

end ClaimLemmas4

end KNN

namespace KNN

section Float32Theory

end Float32Theory

section Float32Tree

end Float32Tree

end KNN

namespace KNN

section Claims4

/-- C11. All-identical points: when all of the `N ≥ 1` points carry the same embedding `e`,
for every query and every `K` with `1 ≤ K ≤ N`, `runMain` returns exactly `K` entries, and
each of them has the distance `distance(e, q)`. -/
theorem identical_points_search {R T : Type} [LinearOrderedField R] (E : Embedding_T R T)
    (nth : (T × Int → T × Int → Bool) → Nat → List (T × Int) → List (T × Int))
    (sort : (PQItem R → PQItem R → Bool) → List (PQItem R) → List (PQItem R))
    (q e : T) (K : Int) (points : List (T × Int))
    (hsel : NthElementPost E nth) (hsort : SortPost sort)
    (hsame : ∀ p ∈ points, p.1 = e) (hK : 1 ≤ K) (hKN : K ≤ points.length) :
    ∃ out, runMain E nth sort q K points = Except.ok out ∧
      (out.length : Int) = K ∧ ∀ x ∈ out, x.1 = E.distance e q := by
  obtain ⟨heap, hs, hr, hl⟩ := searchSorted_ok (E := E) sort q hK (buildKD E nth points 0)
  have hperm := (hsort (drain heap)).1.trans (drain_perm heap)
  refine ⟨_, hr, ?_, ?_⟩
  · rw [hperm.length_eq, hl, buildKD_size hsel]
    omega
  · intro x hx
    have hx2 := (knnSearch_subperm q _ 0 heap hs).subset (hperm.subset hx)
    obtain ⟨p, hp, hxp⟩ := mem_entries hx2
    rw [hxp, hsame p ((buildKD_items_perm hsel points 0).subset hp)]

/-- Witness of C11: three points with the embedding 7, query 1, `K = 2`. -/
theorem identical_points_search_witness :
    NthElementPost (scalarEmbedding ℚ) nthBySort ∧ SortPost (R := ℚ) insertionSortBy ∧
    (∀ p ∈ ([(7, 1), (7, 2), (7, 3)] : List (ℚ × Int)), p.1 = 7) ∧ (1 : Int) ≤ 2 ∧
    (2 : Int) ≤ ([(7, 1), (7, 2), (7, 3)] : List (ℚ × Int)).length ∧
    ∃ out, runMain (scalarEmbedding ℚ) nthBySort insertionSortBy 1 2
        [(7, 1), (7, 2), (7, 3)] = Except.ok out ∧
      (out.length : Int) = 2 ∧ ∀ x ∈ out, x.1 = (scalarEmbedding ℚ).distance 7 1 :=
  ⟨nthBySort_post _, insertionSortBy_sortPost, by decide!, by decide, by decide,
    identical_points_search (scalarEmbedding ℚ) nthBySort insertionSortBy 1 7 2
      [(7, 1), (7, 2), (7, 3)] (nthBySort_post _) insertionSortBy_sortPost (by decide!)
      (by decide) (by decide)⟩

/-- C12. Idempotence: for `K ≥ 1`, a search call on a memory holding a tree and a query
returns a result sequence and leaves the tree and the query in memory as they were; a second
call on the memory left by the first returns the identical sequence; and that sequence is
the one `searchSorted` computes. -/
theorem search_idempotent {R T : Type} [LinearOrderedField R] (E : Embedding_T R T)
    (sort : (PQItem R → PQItem R → Bool) → List (PQItem R) → List (PQItem R))
    (K : Int) (mem : Memory R T) (hK : 1 ≤ K) :
    ∃ (mem1 : Memory R T) (out : List (PQItem R)),
      searchCall E sort K mem = Except.ok (mem1, out) ∧
      mem1.root = mem.root ∧ mem1.queryEmbedding = mem.queryEmbedding ∧
      searchCall E sort K mem1 = Except.ok (mem1, out) ∧
      searchSorted E sort mem.queryEmbedding K mem.root = Except.ok out := by
  obtain ⟨heap, hs, hr, _⟩ := searchSorted_ok (E := E) sort mem.queryEmbedding hK mem.root
  have hcall : ∀ m : Memory R T, m.root = mem.root → m.queryEmbedding = mem.queryEmbedding →
      searchCall E sort K m =
        Except.ok (⟨mem.root, mem.queryEmbedding, []⟩, sort cmpDist (drain heap)) := by
    intro m h1 h2
    simp only [searchCall, knnSearchMem_eq, h1, h2, hs]
  exact ⟨⟨mem.root, mem.queryEmbedding, []⟩, sort cmpDist (drain heap),
    hcall mem rfl rfl, rfl, rfl, hcall _ rfl rfl, hr⟩

/-- Witness of C12: the tree of the example scenario, query 1, `K = 2`. -/
theorem search_idempotent_witness :
    (1 : Int) ≤ 2 ∧
    ∃ (mem1 : Memory ℚ ℚ) (out : List (PQItem ℚ)),
      searchCall (scalarEmbedding ℚ) insertionSortBy 2
        ⟨buildKD (scalarEmbedding ℚ) nthBySort examplePoints 0, 1, []⟩ =
          Except.ok (mem1, out) ∧
      mem1.root = buildKD (scalarEmbedding ℚ) nthBySort examplePoints 0 ∧
      mem1.queryEmbedding = 1 ∧
      searchCall (scalarEmbedding ℚ) insertionSortBy 2 mem1 = Except.ok (mem1, out) ∧
      searchSorted (scalarEmbedding ℚ) insertionSortBy 1 2
        (buildKD (scalarEmbedding ℚ) nthBySort examplePoints 0) = Except.ok out :=
  ⟨by decide,
    search_idempotent (scalarEmbedding ℚ) insertionSortBy 2
      ⟨buildKD (scalarEmbedding ℚ) nthBySort examplePoints 0, 1, []⟩ (by decide)⟩

/-- C14. Halving: in the tree built by `buildKD`, every node whose subtree holds `n` points
has a left subtree of exactly `n / 2` points and a right subtree of exactly `n - 1 - n / 2`
points; the two sizes differ by at most one; and a child is null exactly when its slice is
empty. -/
theorem buildKD_halving {R T : Type} [LinearOrderedField R] (E : Embedding_T R T)
    (nth : (T × Int → T × Int → Bool) → Nat → List (T × Int) → List (T × Int))
    (points : List (T × Int)) (hsel : NthElementPost E nth)
    (d : Nat) (e : T) (i : Int) (l r : Node T)
    (hs : Node.node e i l r ∈ (buildKD E nth points 0).subtreesAt d) :
    l.size = (Node.node e i l r).size / 2 ∧
    r.size = (Node.node e i l r).size - 1 - (Node.node e i l r).size / 2 ∧
    r.size ≤ l.size ∧ l.size ≤ r.size + 1 ∧
    (l = Node.null ↔ (Node.node e i l r).size / 2 = 0) ∧
    (r = Node.null ↔ (Node.node e i l r).size - 1 - (Node.node e i l r).size / 2 = 0) := by
  have h := (Halved.at_subtree _ d _ (buildKD_halved hsel points 0) hs).1
  have hl := Node.size_eq_zero_iff l
  have hr := Node.size_eq_zero_iff r
  simp only [Node.size] at h ⊢
  refine ⟨h, by omega, by omega, by omega, ?_, ?_⟩
  · rw [← hl]; omega
  · rw [← hr]; omega

/-- Witness of C14: the root of the tree of the example scenario, with four points. -/
theorem buildKD_halving_witness :
    NthElementPost (scalarEmbedding ℚ) nthBySort ∧
    Node.node 5 2 (Node.node 2 3 (Node.node 0 1 Node.null Node.null) Node.null)
        (Node.node 9 4 Node.null Node.null) ∈
      (buildKD (scalarEmbedding ℚ) nthBySort examplePoints 0).subtreesAt 0 ∧
    (Node.node (2 : ℚ) 3 (Node.node 0 1 Node.null Node.null) Node.null).size = 4 / 2 ∧
    (Node.node (9 : ℚ) 4 Node.null Node.null).size = 4 - 1 - 4 / 2 :=
  ⟨nthBySort_post _, by decide!,
    (buildKD_halving (scalarEmbedding ℚ) nthBySort examplePoints (nthBySort_post _) 0 5 2
      (Node.node 2 3 (Node.node 0 1 Node.null Node.null) Node.null)
      (Node.node 9 4 Node.null Node.null) (by decide!)).1,
    (buildKD_halving (scalarEmbedding ℚ) nthBySort examplePoints (nthBySort_post _) 0 5 2
      (Node.node 2 3 (Node.node 0 1 Node.null Node.null) Node.null)
      (Node.node 9 4 Node.null Node.null) (by decide!)).2.1⟩

end Claims4

end KNN

namespace KNN

section Claims5

/-- C15. Termination and single visit: `knnSearch` is defined by structural recursion on the
tree. With `K ≥ 1` and a heap of at most `K` entries the instrumented search returns; and
whenever it returns, `knnSearch` returns the same heap, the visited entries are the visit
order of the tree (in which every node occurs once) with some entries left out, so each
node is visited at most once and there are at most `N` visits; and at a node whose far test
fails the visits are the node and the visits inside the near child, none inside the far
child. -/
theorem knnSearch_visits_once {R T : Type} [LinearOrderedField R] (E : Embedding_T R T)
    (q : T) (t : Node T) (depth : Nat) (K : Int) (heap : MaxHeap R) :
    (1 ≤ K → (heap.length : Int) ≤ K →
      ∃ (heap2 : MaxHeap R) (log : List (PQItem R)),
        knnSearchLog E q t depth K heap = Except.ok (heap2, log)) ∧
    (∀ (heap2 : MaxHeap R) (log : List (PQItem R)),
      knnSearchLog E q t depth K heap = Except.ok (heap2, log) →
      knnSearch E q t depth K heap = Except.ok heap2 ∧
      log.Sublist (entries E q (Node.searchOrder E q t depth)) ∧
      log.length ≤ t.size) ∧
    (Node.searchOrder E q t depth).Perm t.items ∧
    (∀ (e : T) (i : Int) (l r : Node T) (d : Nat) (h0 h1 h2 : MaxHeap R)
      (nearLog : List (PQItem R)),
      consider K h0 (E.distance e q) i = Except.ok h1 →
      knnSearchLog E q (nearChild E q d e l r) (d + 1) K h1 = Except.ok (h2, nearLog) →
      ¬ exploresFar E q d K e h2 →
      knnSearchLog E q (Node.node e i l r) d K h0 =
        Except.ok (h2, (E.distance e q, i) :: nearLog)) := by
  refine ⟨?_, ?_, searchOrder_perm q t depth, ?_⟩
  · intro hK hlen
    obtain ⟨heap2, log, h1, _⟩ := knnSearchLog_spec (E := E) hK q t depth heap hlen
    exact ⟨heap2, log, h1⟩
  · intro heap2 log h
    obtain ⟨h1, _, h3⟩ := knnSearchLog_sublist q K t depth heap heap2 log h
    refine ⟨h1, h3, ?_⟩
    have := h3.length_le
    rw [Node.size_eq_length_items, ← (searchOrder_perm (E := E) q t depth).length_eq]
    simpa [entries] using this
  · intro e i l r d h0 h1 h2 nearLog hc hn hx
    rw [knnSearchLog_node, hc]
    simp only [hn, if_neg hx]

/-- Witness of C15: the example scenario. The search visits the points 5, 2 and 0 and
prunes the subtree of the point 9: three visits for four nodes. -/
theorem knnSearch_visits_once_witness :
    (1 : Int) ≤ 2 ∧ ((([] : MaxHeap ℚ).length : Nat) : Int) ≤ 2 ∧
    knnSearchLog (scalarEmbedding ℚ) 1
        (buildKD (scalarEmbedding ℚ) nthBySort examplePoints 0) 0 2 [] =
      Except.ok ([(1, 1), (1, 3)], [(4, 2), (1, 3), (1, 1)]) ∧
    (∃ (heap2 : MaxHeap ℚ) (log : List (PQItem ℚ)),
      knnSearchLog (scalarEmbedding ℚ) 1
        (buildKD (scalarEmbedding ℚ) nthBySort examplePoints 0) 0 2 [] =
          Except.ok (heap2, log)) ∧
    (knnSearch (scalarEmbedding ℚ) 1
        (buildKD (scalarEmbedding ℚ) nthBySort examplePoints 0) 0 2 [] =
        Except.ok [(1, 1), (1, 3)] ∧
      ([(4, 2), (1, 3), (1, 1)] : List (PQItem ℚ)).Sublist
        (entries (scalarEmbedding ℚ) 1
          (Node.searchOrder (scalarEmbedding ℚ) 1
            (buildKD (scalarEmbedding ℚ) nthBySort examplePoints 0) 0)) ∧
      ([(4, 2), (1, 3), (1, 1)] : List (PQItem ℚ)).length ≤
        (buildKD (scalarEmbedding ℚ) nthBySort examplePoints 0).size) :=
  ⟨by decide, by decide, by decide!,
    (knnSearch_visits_once (scalarEmbedding ℚ) 1
      (buildKD (scalarEmbedding ℚ) nthBySort examplePoints 0) 0 2 []).1
      (by decide) (by decide),
    (knnSearch_visits_once (scalarEmbedding ℚ) 1
      (buildKD (scalarEmbedding ℚ) nthBySort examplePoints 0) 0 2 []).2.1 _ _ (by decide!)⟩

/-- C16. Metric agreement in one dimension: over the reals, the array policy instantiated at
`N = 1`, `sqrt((a - b)^2)`, equals the scalar policy `|a - b|`, for all `a` and `b`. -/
theorem metric_agreement_dim_one :
    (∀ a b : ℝ,
      (arrayEmbedding Real.sqrt 1).distance (fun _ => a) (fun _ => b) =
        (scalarEmbedding ℝ).distance a b) ∧
    (∀ a b : Fin 1 → ℝ,
      (arrayEmbedding Real.sqrt 1).distance a b = (scalarEmbedding ℝ).distance (a 0) (b 0)) := by
  have key : ∀ a b : Fin 1 → ℝ,
      (arrayEmbedding Real.sqrt 1).distance a b = (scalarEmbedding ℝ).distance (a 0) (b 0) := by
    intro a b
    show Real.sqrt (sumSquares a b) = |a 0 - b 0|
    have hs : sumSquares a b = (a 0 - b 0) * (a 0 - b 0) := by
      simp [sumSquares, List.finRange]
    rw [hs, Real.sqrt_mul_self_eq_abs]
  exact ⟨fun a b => key (fun _ => a) (fun _ => b), key⟩

/-- C17. Build preserves the points: the pairs stored in the nodes of `buildKD(points)` are
a rearrangement of the input pairs (equal as multisets), and the tree has exactly `N`
nodes. -/
theorem buildKD_preserves_points {R T : Type} [LinearOrderedField R] (E : Embedding_T R T)
    (nth : (T × Int → T × Int → Bool) → Nat → List (T × Int) → List (T × Int))
    (points : List (T × Int)) (depth : Nat) (hsel : NthElementPost E nth) :
    (buildKD E nth points depth).items.Perm points ∧
    (Multiset.ofList (buildKD E nth points depth).items = Multiset.ofList points) ∧
    (buildKD E nth points depth).size = points.length :=
  ⟨buildKD_items_perm hsel points depth,
    Multiset.coe_eq_coe.mpr (buildKD_items_perm hsel points depth),
    buildKD_size hsel points depth⟩

/-- Witness of C17, on the points of the example scenario. -/
theorem buildKD_preserves_points_witness :
    NthElementPost (scalarEmbedding ℚ) nthBySort ∧
    (buildKD (scalarEmbedding ℚ) nthBySort examplePoints 0).items.Perm examplePoints ∧
    (Multiset.ofList (buildKD (scalarEmbedding ℚ) nthBySort examplePoints 0).items =
      Multiset.ofList examplePoints) ∧
    (buildKD (scalarEmbedding ℚ) nthBySort examplePoints 0).size = examplePoints.length :=
  ⟨nthBySort_post _,
    buildKD_preserves_points (scalarEmbedding ℚ) nthBySort examplePoints 0
      (nthBySort_post _)⟩

/-- C18. Soundness of results: for every tree, query and `K ≥ 1`, the search from an empty
heap returns a sequence that is a sub-multiset of the (distance, identifier) entries of the
tree's points, so every returned entry is the entry of a stored point; and when the
identifiers in the tree are pairwise distinct, no identifier is returned twice. -/
theorem search_sound {R T : Type} [LinearOrderedField R] (E : Embedding_T R T)
    (sort : (PQItem R → PQItem R → Bool) → List (PQItem R) → List (PQItem R))
    (q : T) (K : Int) (t : Node T) (hsort : SortPost sort) (hK : 1 ≤ K) :
    ∃ out, searchSorted E sort q K t = Except.ok out ∧
      out.Subperm (entries E q t.items) ∧
      (∀ x ∈ out, ∃ p ∈ t.items, x = (E.distance p.1 q, p.2)) ∧
      ((t.items.map Prod.snd).Nodup → (out.map Prod.snd).Nodup) := by
  obtain ⟨heap, hs, hr, _⟩ := searchSorted_ok (E := E) sort q hK t
  have hperm := (hsort (drain heap)).1.trans (drain_perm heap)
  have hsub : (sort cmpDist (drain heap)).Subperm (entries E q t.items) :=
    hperm.subperm.trans (knnSearch_subperm q t 0 heap hs)
  refine ⟨_, hr, hsub, ?_, ?_⟩
  · intro x hx
    have hx2 := hsub.subset hx
    simp only [entries, List.mem_map] at hx2
    obtain ⟨p, hp, rfl⟩ := hx2
    exact ⟨p, hp, rfl⟩
  · intro hnd
    refine subperm_map_snd_nodup hsub ?_
    have : (entries E q t.items).map Prod.snd = t.items.map Prod.snd := by
      simp [entries, entry, Function.comp_def]
    rw [this]
    exact hnd

/-- Witness of C18: a three-node tree searched with `K = 2`. -/
theorem search_sound_witness :
    SortPost (R := ℚ) insertionSortBy ∧ (1 : Int) ≤ 2 ∧
    ∃ out, searchSorted (scalarEmbedding ℚ) insertionSortBy 1 2
        (Node.node 5 2 (Node.node 2 3 Node.null Node.null)
          (Node.node 9 4 Node.null Node.null)) = Except.ok out ∧
      out.Subperm (entries (scalarEmbedding ℚ) 1
        (Node.node (5 : ℚ) 2 (Node.node 2 3 Node.null Node.null)
          (Node.node 9 4 Node.null Node.null)).items) ∧
      (∀ x ∈ out, ∃ p ∈ (Node.node (5 : ℚ) 2 (Node.node 2 3 Node.null Node.null)
          (Node.node 9 4 Node.null Node.null)).items,
        x = ((scalarEmbedding ℚ).distance p.1 1, p.2)) ∧
      (((Node.node (5 : ℚ) 2 (Node.node 2 3 Node.null Node.null)
          (Node.node 9 4 Node.null Node.null)).items.map Prod.snd).Nodup →
        (out.map Prod.snd).Nodup) :=
  ⟨insertionSortBy_sortPost, by decide,
    search_sound (scalarEmbedding ℚ) insertionSortBy 1 2 _ insertionSortBy_sortPost
      (by decide)⟩

/-- C19. Heap access safety: for every tree, query and `K ≥ 1`, `knnSearch` started with a
heap of at most `K` entries returns a heap and never the fault of `heap.top()` on an empty
heap; the step that reads the top faults only on an empty heap with `K ≤ 0`; and the
worst distance of an empty heap is infinity, read without `heap.top()`. -/
theorem heap_top_safe {R T : Type} [LinearOrderedField R] (E : Embedding_T R T)
    (q : T) (t : Node T) (depth : Nat) (K : Int) (heap : MaxHeap R)
    (hK : 1 ≤ K) (hlen : (heap.length : Int) ≤ K) :
    (∃ heap2, knnSearch E q t depth K heap = Except.ok heap2 ∧ (heap2.length : Int) ≤ K) ∧
    (∀ f : Fault, knnSearch E q t depth K heap ≠ Except.error f) ∧
    (∀ (K2 : Int) (h : MaxHeap R) (d : R) (i : Int) (f : Fault),
      consider K2 h d i = Except.error f ↔ h = [] ∧ K2 ≤ 0) ∧
    worstDist ([] : MaxHeap R) = ⊤ := by
  obtain ⟨heap2, hs, hl⟩ := knnSearch_length (E := E) hK q t depth heap hlen
  refine ⟨⟨heap2, hs, by omega⟩, ?_, consider_error_iff, rfl⟩
  intro f hf
  rw [hs] at hf
  cases hf

/-- Witness of C19: the tree of the example scenario, started with a heap of one entry. -/
theorem heap_top_safe_witness :
    (1 : Int) ≤ 2 ∧ ((([(3, 9)] : MaxHeap ℚ).length : Nat) : Int) ≤ 2 ∧
    (∃ heap2, knnSearch (scalarEmbedding ℚ) 1
        (buildKD (scalarEmbedding ℚ) nthBySort examplePoints 0) 0 2 [(3, 9)] =
          Except.ok heap2 ∧ (heap2.length : Int) ≤ 2) ∧
    (∀ f : Fault, knnSearch (scalarEmbedding ℚ) 1
        (buildKD (scalarEmbedding ℚ) nthBySort examplePoints 0) 0 2 [(3, 9)] ≠
          Except.error f) :=
  ⟨by decide, by decide,
    (heap_top_safe (scalarEmbedding ℚ) 1
      (buildKD (scalarEmbedding ℚ) nthBySort examplePoints 0) 0 2 [(3, 9)]
      (by decide) (by decide)).1,
    (heap_top_safe (scalarEmbedding ℚ) 1
      (buildKD (scalarEmbedding ℚ) nthBySort examplePoints 0) 0 2 [(3, 9)]
      (by decide) (by decide)).2.1⟩

end Claims5

end KNN
